import Mathlib

/-!
Verification of the trade-extraction engine of the pelosi-trade-tracker
repository (src/pdf_parser.py) against its natural-language specification.

The Python code drives everything through Python regular expressions
(re.search).  We embed the relevant fragment of Python's regex language
shallowly:

* RX is the surface pattern language (with greedy and lazy repetition);
  each Python pattern string used by pdf_parser.py is transcribed node by
  node into an RX value below.
* Because every repetition body occurring in those patterns consumes at
  least one character on any successful iteration, a star over an input of
  length n can iterate at most n times.  `unroll n` therefore rewrites each
  star into an n-bounded repetition, producing a star-free pattern (RE)
  with exactly the same match set and the same backtracking priority order
  as Python's engine on inputs of length ≤ n.
* `mrun` enumerates, in Python's backtracking priority order, all ways a
  star-free pattern can match a prefix of the input; `reSearch` scans start
  positions left to right and takes the first hit, which is precisely the
  semantics of Python's re.search (leftmost start position, then
  backtracking order).  Capture groups record the consumed substring.

Strings are lists of characters (`Str`); the inputs in question are ASCII
lines extracted from PDFs, for which Python's str.upper/str.strip and the
character classes \s \d \w coincide with the ASCII definitions used here.
-/

abbrev Str := List Char

/-- Python `\s` (ASCII): the whitespace characters recognised by str.strip. -/
def wsB (c : Char) : Bool :=
  c == ' ' || c == '\t' || c == '\n' || c == '\r' || c == '\x0b' || c == '\x0c'

/-- Python `[A-Z]`. -/
def upperB (c : Char) : Bool := decide ('A' ≤ c) && decide (c ≤ 'Z')

/-- Python `[0-9]` / `\d` (ASCII). -/
def digitB (c : Char) : Bool := decide ('0' ≤ c) && decide (c ≤ '9')

/-- Python `.` (matches everything except a newline). -/
def dotB (c : Char) : Bool := !(c == '\n')

/-- Python `[\d,]` / `[0-9,]`. -/
def digitCommaB (c : Char) : Bool := digitB c || c == ','

/-- Python `[^P]`. -/
def notPB (c : Char) : Bool := !(c == 'P')

/-- Python `[PS]`. -/
def psB (c : Char) : Bool := c == 'P' || c == 'S'

/-- Python `\w` (ASCII): letters, digits and underscore. -/
def wordChB (c : Char) : Bool :=
  upperB c || digitB c || (decide ('a' ≤ c) && decide (c ≤ 'z')) || c == '_'

/-- ASCII upper-casing, as Python str.upper acts on ASCII text. -/
def upCh (c : Char) : Char := c.toUpper

/-- Python str.upper over a line. -/
def upperStr (t : Str) : Str := t.map upCh

/-- Python str.strip (remove leading and trailing whitespace). -/
def pyStrip (t : Str) : Str :=
  ((t.dropWhile wsB).reverse.dropWhile wsB).reverse

/-- Python str.replace('\x00', ''). -/
def stripNulls (t : Str) : Str := t.filter (fun c => !(c == '\x00'))

/-- Does the needle occur at the head of the haystack (str.startswith)? -/
def startsW : Str → Str → Bool
  | [], _ => true
  | _ :: _, [] => false
  | a :: as, b :: bs => a == b && startsW as bs

/-- Python substring containment (`needle in hay`). -/
def containsStr (n : Str) : Str → Bool
  | [] => n.isEmpty
  | c :: t => startsW n (c :: t) || containsStr n t

/-- Python str.endswith('-') after a strip: test of the last character. -/
def endsDash (t : Str) : Bool :=
  match t.getLast? with
  | some c => c == '-'
  | none => false

/-- Python ' '.join. -/
def joinSp : List Str → Str
  | [] => []
  | [x] => x
  | x :: y :: r => x ++ ' ' :: joinSp (y :: r)

/-! ### The pattern language -/

/-- Surface regular expressions: the fragment of Python's regex language
used by pdf_parser.py.  starG is greedy `*`, starL is lazy `*?`, wordB is
the zero-width `\b` assertion. -/
inductive RX : Type where
  | eps : RX
  | cls : (Char → Bool) → RX
  | cat : RX → RX → RX
  | alt : RX → RX → RX
  | starG : RX → RX
  | starL : RX → RX
  | group : Nat → RX → RX
  | wordB : RX

/-- Star-free regular expressions: what the matcher runs on after bounded
unrolling of repetition. -/
inductive RE : Type where
  | eps : RE
  | cls : (Char → Bool) → RE
  | cat : RE → RE → RE
  | alt : RE → RE → RE
  | group : Nat → RE → RE
  | wordB : RE

/-- Greedy bounded repetition a{0,k}: prefer more iterations first, exactly
the backtracking priority of Python's greedy `*` truncated at k. -/
def repUpToG (b : RE) : Nat → RE
  | 0 => .eps
  | k + 1 => .alt (.cat b (repUpToG b k)) .eps

/-- Lazy bounded repetition a{0,k}?: prefer fewer iterations first. -/
def repUpToL (b : RE) : Nat → RE
  | 0 => .eps
  | k + 1 => .alt .eps (.cat b (repUpToL b k))

/-- Replace each star by a k-bounded repetition.  For patterns whose star
bodies always consume at least one character (true of every pattern in
pdf_parser.py), matching against an input of length ≤ k is unchanged, in
match set and in priority order alike. -/
def unroll (k : Nat) : RX → RE
  | .eps => .eps
  | .cls f => .cls f
  | .cat a b => .cat (unroll k a) (unroll k b)
  | .alt a b => .alt (unroll k a) (unroll k b)
  | .starG a => repUpToG (unroll k a) k
  | .starL a => repUpToL (unroll k a) k
  | .group n a => .group n (unroll k a)
  | .wordB => .wordB

/-! ### The matcher -/

/-- One way a pattern can match a prefix of the input: the remaining
suffix, the character just before that suffix (for `\b`), and the list of
group captures made on this path. -/
structure MRes : Type where
  rest : Str
  prev : Option Char
  caps : List (Nat × Str)
deriving DecidableEq

/-- Is the gap between the previous character and the head of the rest a
word boundary in Python's sense? -/
def atBoundary (p : Option Char) (s : Str) : Bool :=
  (match p with | some c => wordChB c | none => false)
    != (match s.head? with | some c => wordChB c | none => false)

/-- All ways `re` can match a prefix of `s`, in Python's backtracking
priority order; `p` is the character preceding `s` in the whole input and
`caps` the captures accumulated so far. -/
def mrun : RE → Str → Option Char → List (Nat × Str) → List MRes
  | .eps, s, p, caps => [⟨s, p, caps⟩]
  | .wordB, s, p, caps => if atBoundary p s then [⟨s, p, caps⟩] else []
  | .cls _, [], _, _ => []
  | .cls f, c :: t, _, caps => if f c then [⟨t, some c, caps⟩] else []
  | .cat a b, s, p, caps =>
      (mrun a s p caps).flatMap fun r => mrun b r.rest r.prev r.caps
  | .alt a b, s, p, caps => mrun a s p caps ++ mrun b s p caps
  | .group n a, s, p, caps =>
      (mrun a s p caps).map fun r =>
        ⟨r.rest, r.prev, (n, s.take (s.length - r.rest.length)) :: r.caps⟩

/-- A successful search: the 0-based start position of the match, the
suffix after the match, and the captures. -/
structure SRes : Type where
  pos : Nat
  rest : Str
  caps : List (Nat × Str)
deriving DecidableEq

/-- Scan start positions left to right; at each, take the first result in
backtracking order.  This is re.search on star-free patterns. -/
def searchAux (re : RE) : Str → Option Char → Nat → Option SRes
  | [], p, i =>
      match mrun re [] p [] with
      | r :: _ => some ⟨i, r.rest, r.caps⟩
      | [] => none
  | c :: t, p, i =>
      match mrun re (c :: t) p [] with
      | r :: _ => some ⟨i, r.rest, r.caps⟩
      | [] => searchAux re t (some c) (i + 1)

/-- Python re.search of a surface pattern against a line. -/
def reSearch (rx : RX) (s : Str) : Option SRes :=
  searchAux (unroll s.length rx) s none 0

/-- Python match.group(n): the first capture recorded for group n (each
group of the patterns below is bound at most once per match). -/
def capGet (m : SRes) (n : Nat) : Option Str :=
  (m.caps.find? fun q => q.1 == n).map fun q => q.2

/-- Capture of group n, defaulting to the empty string (the default is
never reached for the mandatory groups of the patterns below, as proved by
the mustBind lemmas). -/
def capD (m : SRes) (n : Nat) : Str := (capGet m n).getD []

/-! ### The patterns of pdf_parser.py

Each definition transcribes one Python pattern string node by node. -/

/-- A literal character. -/
def rxCh (c : Char) : RX := .cls fun x => x == c

/-- A literal string. -/
def rxLit (s : Str) : RX := s.foldr (fun c r => .cat (rxCh c) r) .eps

/-- Greedy `?`. -/
def rxOpt (a : RX) : RX := .alt a .eps

/-- Exactly n copies. -/
def rxExact : Nat → RX → RX
  | 0, _ => .eps
  | n + 1, a => .cat a (rxExact n a)

/-- Greedy a{0,k}. -/
def rxUpTo : Nat → RX → RX
  | 0, _ => .eps
  | k + 1, a => rxOpt (.cat a (rxUpTo k a))

/-- Greedy a{m,k}. -/
def rxRep (m k : Nat) (a : RX) : RX := .cat (rxExact m a) (rxUpTo (k - m) a)

/-- Greedy `+`. -/
def rxPlus (a : RX) : RX := .cat a (.starG a)

/-- `\s+`. -/
def rxWsP : RX := rxPlus (.cls wsB)

/-- `\s*`. -/
def rxWsS : RX := .starG (.cls wsB)

/-- `\d{1,2}/\d{1,2}/\d{4}`. -/
def rxDate : RX :=
  .cat (rxRep 1 2 (.cls digitB)) (.cat (rxCh '/')
    (.cat (rxRep 1 2 (.cls digitB)) (.cat (rxCh '/') (rxExact 4 (.cls digitB)))))

/-- `\$[\d,]+(?:\s*-)?` — the amount token of the three structural shapes. -/
def rxAmt : RX :=
  .cat (rxCh '$') (.cat (rxPlus (.cls digitCommaB)) (rxOpt (.cat rxWsS (rxCh '-'))))

/-- Pattern 1 of `_parse_ptr_trade_line` (and ptr_pattern1 of
`_is_trade_line`, which is the same regex without the capture groups):
`([A-Z].*?)\s*\(([A-Z]{1,5})\)\s*([PS])\s+(\d{1,2}/\d{1,2}/\d{4})\s+(\d{1,2}/\d{1,2}/\d{4})\s+(\$[\d,]+(?:\s*-)?)`. -/
def rxP1 : RX :=
  .cat (.group 1 (.cat (.cls upperB) (.starL (.cls dotB))))
    (.cat rxWsS (.cat (rxCh '(')
      (.cat (.group 2 (rxRep 1 5 (.cls upperB))) (.cat (rxCh ')')
        (.cat rxWsS (.cat (.group 3 (.cls psB))
          (.cat rxWsP (.cat (.group 4 rxDate)
            (.cat rxWsP (.cat (.group 5 rxDate)
              (.cat rxWsP (.group 6 rxAmt))))))))))))

/-- Pattern 2 of `_parse_ptr_trade_line` (and ptr_pattern2 of
`_is_trade_line`):
`SP\s+([A-Z][^P]*?)\s+([PS])(?:\s+\(partial\))?\s+(\d{1,2}/\d{1,2}/\d{4})\s+(\d{1,2}/\d{1,2}/\d{4})\s+(\$[\d,]+(?:\s*-)?)`. -/
def rxP2 : RX :=
  .cat (rxLit ['S', 'P']) (.cat rxWsP
    (.cat (.group 1 (.cat (.cls upperB) (.starL (.cls notPB))))
      (.cat rxWsP (.cat (.group 2 (.cls psB))
        (.cat (rxOpt (.cat rxWsP (rxLit ['(', 'p', 'a', 'r', 't', 'i', 'a', 'l', ')'])))
          (.cat rxWsP (.cat (.group 3 rxDate)
            (.cat rxWsP (.cat (.group 4 rxDate)
              (.cat rxWsP (.group 5 rxAmt)))))))))))

/-- Pattern 3 of `_parse_ptr_trade_line` (and ptr_pattern3 of
`_is_trade_line`): pattern 2 without the optional `(partial)` marker. -/
def rxP3 : RX :=
  .cat (rxLit ['S', 'P']) (.cat rxWsP
    (.cat (.group 1 (.cat (.cls upperB) (.starL (.cls notPB))))
      (.cat rxWsP (.cat (.group 2 (.cls psB))
        (.cat rxWsP (.cat (.group 3 rxDate)
          (.cat rxWsP (.cat (.group 4 rxDate)
            (.cat rxWsP (.group 5 rxAmt))))))))))

/-- `\(([A-Z]{1,5})\)` — ticker extraction. -/
def rxTicker : RX :=
  .cat (rxCh '(') (.cat (.group 1 (rxRep 1 5 (.cls upperB))) (rxCh ')'))

/-- `(\$[\d,]+)` — the dollar token used to complete a split amount. -/
def rxAmtTok : RX := .group 1 (.cat (rxCh '$') (rxPlus (.cls digitCommaB)))

/-- `\b(\d{1,2}/\d{1,2}/\d{4})\b` — date extraction. -/
def rxDateWord : RX := .cat .wordB (.cat (.group 1 rxDate) .wordB)

/-- `\b([A-Z]{2,}(?:\s+[A-Z]{2,})*)\b` — heuristic asset-name extraction. -/
def rxAsset : RX :=
  .cat .wordB (.cat (.group 1
    (.cat (.cat (.cls upperB) (rxPlus (.cls upperB)))
      (.starG (.cat rxWsP (.cat (.cls upperB) (rxPlus (.cls upperB)))))))
    .wordB)

/-- `\$([0-9,]+)-?\$?([0-9,]+)?` — amount pattern 1 of
`_extract_amount_range`. -/
def rxAmt1 : RX :=
  .cat (rxCh '$') (.cat (.group 1 (rxPlus (.cls digitCommaB)))
    (.cat (rxOpt (rxCh '-')) (.cat (rxOpt (rxCh '$'))
      (rxOpt (.group 2 (rxPlus (.cls digitCommaB)))))))

/-- `Over\s+\$([0-9,]+)`. -/
def rxOver : RX :=
  .cat (rxLit ['O', 'v', 'e', 'r']) (.cat rxWsP
    (.cat (rxCh '$') (.group 1 (rxPlus (.cls digitCommaB)))))

/-- `Under\s+\$([0-9,]+)`. -/
def rxUnder : RX :=
  .cat (rxLit ['U', 'n', 'd', 'e', 'r']) (.cat rxWsP
    (.cat (rxCh '$') (.group 1 (rxPlus (.cls digitCommaB)))))

/-- `\$([0-9,]+)\s+to\s+\$([0-9,]+)`. -/
def rxToAmt : RX :=
  .cat (rxCh '$') (.cat (.group 1 (rxPlus (.cls digitCommaB)))
    (.cat rxWsP (.cat (rxLit ['t', 'o'])
      (.cat rxWsP (.cat (rxCh '$') (.group 2 (rxPlus (.cls digitCommaB))))))))

/-! ### The engine of pdf_parser.py -/

/-- The trade-type enum of pdf_parser.py. -/
inductive PyTradeType : Type where
  | stock : PyTradeType
  | optionCall : PyTradeType
  | optionPut : PyTradeType
deriving DecidableEq

/-- The .value strings of the TradeType enum. -/
def PyTradeType.val : PyTradeType → Str
  | .stock => "stock".data
  | .optionCall => "option_call".data
  | .optionPut => "option_put".data

/-- A trade record, mirroring the dictionaries built by pdf_parser.py.
The two construction sites produce different key sets, so the keys that
are present on one path only are modelled as Option with none = key
absent: notification_date and description appear only in the records of
`_parse_ptr_trade_line`, filing_date only in the heuristic records of
`_parse_trade_line`.  The ticker field itself is Option Str with none
modelling Python's None value (heuristic path) — the key is always
present. -/
structure Trade : Type where
  asset_name : Str
  ticker : Option Str
  trade_type : Str
  action : Str
  amount_range : Str
  transaction_date : Str
  notification_date : Option Str
  description : Option Str
  filing_date : Option Str
  raw_line : Str
deriving DecidableEq

/-- The action keywords of `_is_trade_line`. -/
def actionKws : List Str :=
  ["BUY".data, "SELL".data, "PURCHASE".data, "SALE".data, "ACQUIRED".data, "DISPOSED".data]

/-- The asset indicators of `_is_trade_line`. -/
def assetKws : List Str :=
  ["INC".data, "CORP".data, "LLC".data, "ETF".data, "STOCK".data, "SHARES".data]

/-- The header/footer keywords of `_is_trade_line`. -/
def skipKws : List Str :=
  ["DATE".data, "ASSET".data, "ACTION".data, "AMOUNT".data, "---".data,
    "TOTAL".data, "SUMMARY".data]

/-- `_is_trade_line`: the three structural patterns, then the
keyword/indicator fallback guarded by the header-keyword rejection. -/
def pyIsTradeLine (line : Str) : Bool :=
  if (reSearch rxP1 line).isSome then true
  else if (reSearch rxP2 line).isSome then true
  else if (reSearch rxP3 line).isSome then true
  else
    let lu := upperStr line
    let hasAction := actionKws.any fun k => containsStr k lu
    let hasAsset := assetKws.any fun k => containsStr k lu
    let isHeader := skipKws.any fun k => containsStr k lu
    hasAction && hasAsset && !isHeader

/-- `_determine_trade_type_from_ptr_context`: join the current line and up
to the next 4, uppercase, look for option keywords (CALL beats PUT beats
the default-to-call for other option keywords). -/
def pyDetermineType (all_lines : List Str) (i : Nat) : PyTradeType :=
  if all_lines.isEmpty then .stock
  else
    let t := upperStr (joinSp ((all_lines.drop i).take 5))
    if containsStr "CALL".data t || containsStr "PUT".data t
        || containsStr "OPTION".data t || containsStr "STRIKE".data t
        || containsStr "EXPIRATION".data t then
      if containsStr "CALL".data t then .optionCall
      else if containsStr "PUT".data t then .optionPut
      else .optionCall
    else .stock

/-- The loop body of `_extract_description_for_trade`: walk the window of
lines, tracking whether a D: line has been seen, mirroring the Python loop
with its break statements. -/
def descScan : List Str → Bool → List Str
  | [], _ => []
  | l :: rest, foundD =>
    let cleaned := pyStrip (stripNulls (pyStrip l))
    if startsW ['D', ':'] cleaned then
      pyStrip (cleaned.drop 2) :: descScan rest true
    else if foundD then
      if startsW ['S', 'P', ' '] cleaned || startsW ['L', ':'] cleaned then []
      else cleaned :: descScan rest true
    else if startsW ['S', 'P', ' '] cleaned then []
    else descScan rest false

/-- `_extract_description_for_trade`: scan lines index+1 .. index+9 and
join the collected fragments with single spaces. -/
def pyExtractDescription (all_lines : List Str) (i : Nat) : Str :=
  if all_lines.isEmpty then []
  else joinSp (descScan ((all_lines.drop (i + 1)).take 9) false)

/-- `_extract_action`. -/
def pyExtractAction (line : Str) : Option Str :=
  if ["BUY".data, "PURCHASE".data, "ACQUIRED".data, "ACQUISITION".data].any
      (fun k => containsStr k (upperStr line)) then some "BUY".data
  else if ["SELL".data, "SALE".data, "DISPOSED".data, "DISPOSAL".data].any
      (fun k => containsStr k (upperStr line)) then some "SELL".data
  else none

/-- `_extract_asset_and_type`: the CALL/PUT branch (falling through to the
stock branch when no parenthesized ticker is present), then the
uppercase-run asset extraction with optional ticker. -/
def pyExtractAssetAndType (line : Str) : Option (Str × Option Str × PyTradeType) :=
  match
    (if containsStr "CALL".data (upperStr line) || containsStr "PUT".data (upperStr line) then
      match reSearch rxTicker line with
      | some m =>
        some (pyStrip (line.take m.pos), some (capD m 1),
          if containsStr "CALL".data (upperStr line) then PyTradeType.optionCall
          else PyTradeType.optionPut)
      | none => none
    else none) with
  | some r => some r
  | none =>
    match reSearch rxAsset line with
    | some m =>
      some (pyStrip (capD m 1),
        (reSearch rxTicker line).map (fun tm => capD tm 1), PyTradeType.stock)
    | none => none

/-- `_extract_amount_range`: the cascade of amount patterns, first match
winning.  The emptiness test Python performs on group 2 (`if
amount_match.group(2):`) coincides with presence, since the group's body
`[0-9,]+` never captures the empty string. -/
def pyExtractAmountRange (line : Str) : Str :=
  match reSearch rxAmt1 line with
  | some m =>
    (match capGet m 2 with
     | some g2 => '$' :: (capD m 1 ++ '-' :: '$' :: g2)
     | none => '$' :: capD m 1)
  | none =>
    match reSearch rxOver line with
    | some m => "Over $".data ++ capD m 1
    | none =>
      match reSearch rxUnder line with
      | some m => "Under $".data ++ capD m 1
      | none =>
        match reSearch rxToAmt line with
        | some m => '$' :: (capD m 1 ++ '-' :: '$' :: capD m 2)
        | none => "Unknown".data

/-- `_extract_transaction_date`: the current line first, then the window
from two lines before to two lines after, first MM/DD/YYYY token winning. -/
def pyExtractTransactionDate (line : Str) (all_lines : List Str) (i : Nat) : Str :=
  match reSearch rxDateWord line with
  | some m => capD m 1
  | none =>
    (((all_lines.drop (i - 2)).take (min all_lines.length (i + 3) - (i - 2))).findSome?
      fun l => (reSearch rxDateWord l).map fun m => capD m 1).getD "Unknown".data

/-- `_extract_filing_date`: scan the first 10 lines for a header keyword
and take the first date token on such a line. -/
def pyExtractFilingDate (all_lines : List Str) : Str :=
  ((all_lines.take 10).findSome? fun l =>
    if containsStr "FILING DATE".data (upperStr l)
        || containsStr "DATE FILED".data (upperStr l)
        || containsStr "REPORT DATE".data (upperStr l) then
      (reSearch rxDateWord l).map fun m => capD m 1
    else none).getD "Unknown".data

/-- P/S to BUY/SELL: `'BUY' if action_code.upper() == 'P' else 'SELL'`. -/
def psToAction (ac : Str) : Str :=
  if upperStr ac == ['P'] then "BUY".data else "SELL".data

/-- The trade-type / description pair shared by the three structural
branches: descriptions are extracted only for option trades. -/
def ttDesc (all_lines : List Str) (i : Nat) : PyTradeType × Str :=
  let tt := pyDetermineType all_lines i
  (tt, match tt with
       | .stock => []
       | _ => pyExtractDescription all_lines i)

/-- The record built by the pattern-1 branch of `_parse_ptr_trade_line`. -/
def recP1 (line : Str) (all_lines : List Str) (i : Nat) (m : SRes) : Trade :=
  let amtS := pyStrip (capD m 6)
  let complete :=
    if endsDash amtS && i + 1 < all_lines.length then
      match reSearch rxAmtTok (all_lines.getD (i + 1) []) with
      | some am => amtS ++ ' ' :: capD am 1
      | none => amtS
    else amtS
  let td := ttDesc all_lines i
  ⟨pyStrip (capD m 1), some (pyStrip (capD m 2)), td.1.val,
    psToAction (capD m 3), complete, pyStrip (capD m 4),
    some (pyStrip (capD m 5)), some td.2, none, pyStrip line⟩

/-- The record built by the pattern-2 branch (nxt is the following line). -/
def recP2 (line nxt : Str) (all_lines : List Str) (i : Nat) (m2 tm : SRes) : Trade :=
  let complete :=
    match reSearch rxAmtTok nxt with
    | some am => pyStrip (capD m2 5) ++ ' ' :: capD am 1
    | none => pyStrip (capD m2 5)
  let td := ttDesc all_lines i
  ⟨pyStrip (capD m2 1), some (pyStrip (capD tm 1)), td.1.val,
    psToAction (capD m2 2), complete, pyStrip (capD m2 3),
    some (pyStrip (capD m2 4)), some td.2, none, pyStrip line⟩

/-- The record built by the pattern-3 branch (no-ticker assets). -/
def recP3 (line : Str) (all_lines : List Str) (i : Nat) (m3 : SRes) : Trade :=
  let amount := capD m3 5
  let complete :=
    if containsStr " - ".data amount || containsStr " -$".data amount then
      pyStrip amount
    else
      match reSearch rxAmtTok (all_lines.getD (i + 1) []) with
      | some am => pyStrip amount ++ ' ' :: capD am 1
      | none => pyStrip amount
  let td := ttDesc all_lines i
  ⟨pyStrip (capD m3 1), some "N/A".data, td.1.val, psToAction (capD m3 2),
    complete, pyStrip (capD m3 3), some (pyStrip (capD m3 4)), some td.2,
    none, pyStrip line⟩

/-- The pattern-3 branch of `_parse_ptr_trade_line` (no-ticker assets):
reached when pattern 1 failed and the pattern-2 branch did not return. -/
def pyP3Branch (line : Str) (all_lines : List Str) (i : Nat) : Option Trade :=
  match reSearch rxP3 line with
  | some m3 =>
    if i + 1 < all_lines.length then some (recP3 line all_lines i m3)
    else none
  | none => none

/-- `_parse_ptr_trade_line`: pattern 1 (ticker on the same line), then
pattern 2 (ticker on the next line), then pattern 3 (no ticker).  A
pattern-2 match whose next line carries no parenthesized ticker, or with
no next line, falls through to pattern 3, as in the Python control flow. -/
def pyParsePtrTradeLine (line : Str) (all_lines : List Str) (i : Nat) : Option Trade :=
  match reSearch rxP1 line with
  | some m => some (recP1 line all_lines i m)
  | none =>
    match reSearch rxP2 line with
    | some m2 =>
      if i + 1 < all_lines.length then
        match reSearch rxTicker (all_lines.getD (i + 1) []) with
        | some tm => some (recP2 line (all_lines.getD (i + 1) []) all_lines i m2 tm)
        | none => pyP3Branch line all_lines i
      else pyP3Branch line all_lines i
    | none => pyP3Branch line all_lines i

/-- The record built by the heuristic fallback of `_parse_trade_line`. -/
def recHeur (line : Str) (all_lines : List Str) (i : Nat) (action asset : Str)
    (ticker : Option Str) (tt : PyTradeType) : Trade :=
  ⟨asset, ticker, tt.val, action, pyExtractAmountRange line,
    pyExtractTransactionDate line all_lines i, none, none,
    some (pyExtractFilingDate all_lines), pyStrip line⟩

/-- `_parse_trade_line`: the structural parser first, then the heuristic
fallback, whose record is emitted only when the asset name is longer than
2 characters.  The embedding is total, so the try/except wrapper of the
Python code has no residue here. -/
def pyParseTradeLine (line : Str) (all_lines : List Str) (i : Nat) : Option Trade :=
  match pyParsePtrTradeLine line all_lines i with
  | some t => some t
  | none =>
    match pyExtractAction line with
    | none => none
    | some action =>
      match pyExtractAssetAndType line with
      | none => none
      | some (asset, ticker, tt) =>
        if 2 < asset.length then
          some (recHeur line all_lines i action asset ticker tt)
        else none

/-- The scan of `_parse_text_for_trades` over the numbered lines. -/
def parseLoop (lines : List Str) : Nat → List Str → List Trade
  | _, [] => []
  | i, l :: rest =>
    if pyIsTradeLine l then
      match pyParseTradeLine l lines i with
      | some t => t :: parseLoop lines (i + 1) rest
      | none => parseLoop lines (i + 1) rest
    else parseLoop lines (i + 1) rest

/-- `_parse_text_for_trades`: the whole engine on one document's lines. -/
def pyParseTextForTrades (lines : List Str) : List Trade :=
  parseLoop lines 0 lines

/-! ### Soundness of the matcher

`Matches re t` is the declarative matching relation for star-free
patterns (`\b` is treated as consuming nothing; which side of a word
boundary it sits on is irrelevant to the facts proved below).  The
soundness theorem says every result enumerated by `mrun` consumes a prefix
matching the pattern, and every capture it records is the match of the
corresponding group body. -/

inductive Matches : RE → Str → Prop where
  | eps : Matches .eps []
  | cls {f : Char → Bool} {c : Char} : f c = true → Matches (.cls f) [c]
  | cat {a b : RE} {t u : Str} :
      Matches a t → Matches b u → Matches (.cat a b) (t ++ u)
  | altL {a b : RE} {t : Str} : Matches a t → Matches (.alt a b) t
  | altR {a b : RE} {t : Str} : Matches b t → Matches (.alt a b) t
  | grp {n : Nat} {a : RE} {t : Str} : Matches a t → Matches (.group n a) t
  | wb : Matches .wordB []

/-- The group nodes of a star-free pattern, with their bodies. -/
def groupsOf : RE → List (Nat × RE)
  | .eps => []
  | .cls _ => []
  | .wordB => []
  | .cat a b => groupsOf a ++ groupsOf b
  | .alt a b => groupsOf a ++ groupsOf b
  | .group n a => (n, a) :: groupsOf a

theorem mrun_sound : ∀ (re : RE) (s : Str) (p : Option Char)
    (caps : List (Nat × Str)) (r : MRes), r ∈ mrun re s p caps →
    (∃ t, s = t ++ r.rest ∧ Matches re t) ∧
    ∀ n c, (n, c) ∈ r.caps →
      (n, c) ∈ caps ∨ ∃ a, (n, a) ∈ groupsOf re ∧ Matches a c := by
  intro re
  induction re with
  | eps =>
    intro s p caps r hr
    simp only [mrun, List.mem_singleton] at hr
    subst hr
    exact ⟨⟨[], rfl, Matches.eps⟩, fun n c hc => Or.inl hc⟩
  | wordB =>
    intro s p caps r hr
    simp only [mrun] at hr
    split at hr
    · simp only [List.mem_singleton] at hr
      subst hr
      exact ⟨⟨[], rfl, Matches.wb⟩, fun n c hc => Or.inl hc⟩
    · simp at hr
  | cls f =>
    intro s p caps r hr
    match s with
    | [] => simp [mrun] at hr
    | c :: t =>
      simp only [mrun] at hr
      split at hr
      case isTrue hf =>
        simp only [List.mem_singleton] at hr
        subst hr
        exact ⟨⟨[c], rfl, Matches.cls hf⟩, fun n c hc => Or.inl hc⟩
      case isFalse => simp at hr
  | cat a b iha ihb =>
    intro s p caps r hr
    simp only [mrun, List.mem_flatMap] at hr
    obtain ⟨r1, hr1, hr2⟩ := hr
    obtain ⟨⟨t1, ht1, hm1⟩, hc1⟩ := iha s p caps r1 hr1
    obtain ⟨⟨t2, ht2, hm2⟩, hc2⟩ := ihb r1.rest r1.prev r1.caps r hr2
    refine ⟨⟨t1 ++ t2, ?_, Matches.cat hm1 hm2⟩, ?_⟩
    · rw [ht1, ht2, List.append_assoc]
    · intro n c hc
      rcases hc2 n c hc with h | ⟨x, hx, hmx⟩
      · rcases hc1 n c h with h' | ⟨x, hx, hmx⟩
        · exact Or.inl h'
        · exact Or.inr ⟨x, by simp [groupsOf, hx], hmx⟩
      · exact Or.inr ⟨x, by simp [groupsOf, hx], hmx⟩
  | alt a b iha ihb =>
    intro s p caps r hr
    simp only [mrun, List.mem_append] at hr
    rcases hr with hr | hr
    · obtain ⟨⟨t, ht, hm⟩, hc⟩ := iha s p caps r hr
      refine ⟨⟨t, ht, Matches.altL hm⟩, fun n c h => ?_⟩
      rcases hc n c h with h' | ⟨x, hx, hmx⟩
      · exact Or.inl h'
      · exact Or.inr ⟨x, by simp [groupsOf, hx], hmx⟩
    · obtain ⟨⟨t, ht, hm⟩, hc⟩ := ihb s p caps r hr
      refine ⟨⟨t, ht, Matches.altR hm⟩, fun n c h => ?_⟩
      rcases hc n c h with h' | ⟨x, hx, hmx⟩
      · exact Or.inl h'
      · exact Or.inr ⟨x, by simp [groupsOf, hx], hmx⟩
  | group g a iha =>
    intro s p caps r hr
    simp only [mrun, List.mem_map] at hr
    obtain ⟨r1, hr1, hr⟩ := hr
    obtain ⟨⟨t, ht, hm⟩, hc⟩ := iha s p caps r1 hr1
    have htake : s.take (s.length - r1.rest.length) = t := by
      rw [ht, List.length_append, Nat.add_sub_cancel, List.take_left]
    subst hr
    refine ⟨⟨t, ht, Matches.grp hm⟩, ?_⟩
    intro n c hc'
    simp only [List.mem_cons] at hc'
    rcases hc' with hc' | hc'
    · rw [htake] at hc'
      rw [Prod.mk.injEq] at hc'
      obtain ⟨rfl, rfl⟩ := hc'
      exact Or.inr ⟨a, by simp [groupsOf], hm⟩
    · rcases hc n c hc' with h' | ⟨x, hx, hmx⟩
      · exact Or.inl h'
      · exact Or.inr ⟨x, by simp [groupsOf, hx], hmx⟩

theorem searchAux_sound : ∀ (s : Str) (re : RE) (p : Option Char) (i : Nat)
    (m : SRes), searchAux re s p i = some m →
    ∀ n c, (n, c) ∈ m.caps → ∃ a, (n, a) ∈ groupsOf re ∧ Matches a c := by
  intro s
  induction s with
  | nil =>
    intro re p i m hm n c hc
    simp only [searchAux] at hm
    split at hm
    case h_1 r _ hr =>
      obtain rfl : (⟨i, r.rest, r.caps⟩ : SRes) = m := by injection hm
      have hmem : r ∈ mrun re [] p [] := by rw [hr]; exact List.mem_cons_self ..
      have := (mrun_sound re [] p [] r hmem).2 n c hc
      simpa using this
    case h_2 => exact absurd hm (by simp)
  | cons ch t ih =>
    intro re p i m hm n c hc
    simp only [searchAux] at hm
    split at hm
    case h_1 r _ hr =>
      obtain rfl : (⟨i, r.rest, r.caps⟩ : SRes) = m := by injection hm
      have hmem : r ∈ mrun re (ch :: t) p [] := by rw [hr]; exact List.mem_cons_self ..
      have := (mrun_sound re (ch :: t) p [] r hmem).2 n c hc
      simpa using this
    case h_2 => exact ih re (some ch) (i + 1) m hm n c hc

/-- Captures produced by a successful search match the body of their
group, read off from the unrolled pattern. -/
theorem reSearch_caps {rx : RX} {s : Str} {m : SRes} {n : Nat} {c : Str}
    (hs : reSearch rx s = some m) (hc : capGet m n = some c) :
    ∃ a, (n, a) ∈ groupsOf (unroll s.length rx) ∧ Matches a c := by
  have hmem : (n, c) ∈ m.caps := by
    unfold capGet at hc
    obtain ⟨q, hq, rfl⟩ := Option.map_eq_some'.mp hc
    have h1 := List.find?_some hq
    have h2 := List.mem_of_find?_eq_some hq
    have : q.1 = n := by simpa using h1
    rw [← this]
    exact h2
  exact searchAux_sound s (unroll s.length rx) none 0 m hs n c hmem

/-! ### Groups that every successful match binds -/

/-- Syntactic check that group n is captured on every path through the
pattern. -/
def mustBind (n : Nat) : RE → Bool
  | .eps => false
  | .cls _ => false
  | .wordB => false
  | .cat a b => mustBind n a || mustBind n b
  | .alt a b => mustBind n a && mustBind n b
  | .group g a => (g == n) || mustBind n a

theorem mrun_caps_ext : ∀ (re : RE) (s : Str) (p : Option Char)
    (caps : List (Nat × Str)) (r : MRes), r ∈ mrun re s p caps →
    ∃ pre, r.caps = pre ++ caps := by
  intro re
  induction re with
  | eps =>
    intro s p caps r hr
    simp only [mrun, List.mem_singleton] at hr
    exact ⟨[], by subst hr; rfl⟩
  | wordB =>
    intro s p caps r hr
    simp only [mrun] at hr
    split at hr
    · simp only [List.mem_singleton] at hr
      exact ⟨[], by subst hr; rfl⟩
    · simp at hr
  | cls f =>
    intro s p caps r hr
    match s with
    | [] => simp [mrun] at hr
    | c :: t =>
      simp only [mrun] at hr
      split at hr
      · simp only [List.mem_singleton] at hr
        exact ⟨[], by subst hr; rfl⟩
      · simp at hr
  | cat a b iha ihb =>
    intro s p caps r hr
    simp only [mrun, List.mem_flatMap] at hr
    obtain ⟨r1, hr1, hr2⟩ := hr
    obtain ⟨p1, hp1⟩ := iha s p caps r1 hr1
    obtain ⟨p2, hp2⟩ := ihb r1.rest r1.prev r1.caps r hr2
    exact ⟨p2 ++ p1, by rw [hp2, hp1, List.append_assoc]⟩
  | alt a b iha ihb =>
    intro s p caps r hr
    simp only [mrun, List.mem_append] at hr
    rcases hr with hr | hr
    · exact iha s p caps r hr
    · exact ihb s p caps r hr
  | group g a iha =>
    intro s p caps r hr
    simp only [mrun, List.mem_map] at hr
    obtain ⟨r1, hr1, hr⟩ := hr
    obtain ⟨p1, hp1⟩ := iha s p caps r1 hr1
    subst hr
    exact ⟨(g, s.take (s.length - r1.rest.length)) :: p1, by simp [hp1]⟩

theorem mrun_mustBind : ∀ (re : RE), mustBind n re = true →
    ∀ (s : Str) (p : Option Char) (caps : List (Nat × Str)) (r : MRes),
    r ∈ mrun re s p caps → ∃ c, (n, c) ∈ r.caps := by
  intro re
  induction re with
  | eps => intro h; simp [mustBind] at h
  | wordB => intro h; simp [mustBind] at h
  | cls f => intro h; simp [mustBind] at h
  | cat a b iha ihb =>
    intro h s p caps r hr
    simp only [mrun, List.mem_flatMap] at hr
    obtain ⟨r1, hr1, hr2⟩ := hr
    simp only [mustBind, Bool.or_eq_true] at h
    rcases h with h | h
    · obtain ⟨c, hc⟩ := iha h s p caps r1 hr1
      obtain ⟨pre, hpre⟩ := mrun_caps_ext b r1.rest r1.prev r1.caps r hr2
      exact ⟨c, by rw [hpre]; exact List.mem_append_right _ hc⟩
    · exact ihb h r1.rest r1.prev r1.caps r hr2
  | alt a b iha ihb =>
    intro h s p caps r hr
    simp only [mustBind, Bool.and_eq_true] at h
    simp only [mrun, List.mem_append] at hr
    rcases hr with hr | hr
    · exact iha h.1 s p caps r hr
    · exact ihb h.2 s p caps r hr
  | group g a iha =>
    intro h s p caps r hr
    simp only [mrun, List.mem_map] at hr
    obtain ⟨r1, hr1, hr⟩ := hr
    simp only [mustBind, Bool.or_eq_true, beq_iff_eq] at h
    rcases h with h | h
    · subst h hr
      exact ⟨_, List.mem_cons_self ..⟩
    · obtain ⟨c, hc⟩ := iha h s p caps r1 hr1
      subst hr
      exact ⟨c, List.mem_cons_of_mem _ hc⟩

theorem searchAux_mustBind : ∀ (s : Str) (re : RE) (p : Option Char) (i : Nat)
    (m : SRes), searchAux re s p i = some m → mustBind n re = true →
    ∃ c, (n, c) ∈ m.caps := by
  intro s
  induction s with
  | nil =>
    intro re p i m hm hb
    simp only [searchAux] at hm
    split at hm
    case h_1 r _ hr =>
      obtain rfl : (⟨i, r.rest, r.caps⟩ : SRes) = m := by injection hm
      exact mrun_mustBind re hb [] p [] r (by rw [hr]; exact List.mem_cons_self ..)
    case h_2 => exact absurd hm (by simp)
  | cons ch t ih =>
    intro re p i m hm hb
    simp only [searchAux] at hm
    split at hm
    case h_1 r _ hr =>
      obtain rfl : (⟨i, r.rest, r.caps⟩ : SRes) = m := by injection hm
      exact mrun_mustBind re hb (ch :: t) p [] r (by rw [hr]; exact List.mem_cons_self ..)
    case h_2 => exact ih re (some ch) (i + 1) m hm hb

/-- A successful search yields a capture for every group the pattern is
bound to bind. -/
theorem reSearch_mustBind {rx : RX} {s : Str} {m : SRes} {n : Nat}
    (hs : reSearch rx s = some m)
    (hb : mustBind n (unroll s.length rx) = true) :
    ∃ c, capGet m n = some c := by
  obtain ⟨c, hc⟩ := searchAux_mustBind s (unroll s.length rx) none 0 m hs hb
  have : (m.caps.find? fun q => q.1 == n).isSome := by
    rw [List.find?_isSome]
    exact ⟨(n, c), hc, by simp⟩
  obtain ⟨q, hq⟩ := Option.isSome_iff_exists.mp this
  exact ⟨q.2, by simp [capGet, hq]⟩

/-! ### Reading groups off the surface patterns -/

/-- The group nodes of a surface pattern. -/
def groupsRX : RX → List (Nat × RX)
  | .eps => []
  | .cls _ => []
  | .wordB => []
  | .cat a b => groupsRX a ++ groupsRX b
  | .alt a b => groupsRX a ++ groupsRX b
  | .starG a => groupsRX a
  | .starL a => groupsRX a
  | .group n a => (n, a) :: groupsRX a

/-- No group occurs under a star (true of every pattern above). -/
def noGrpStar : RX → Bool
  | .eps => true
  | .cls _ => true
  | .wordB => true
  | .cat a b => noGrpStar a && noGrpStar b
  | .alt a b => noGrpStar a && noGrpStar b
  | .starG a => (groupsRX a).isEmpty && noGrpStar a
  | .starL a => (groupsRX a).isEmpty && noGrpStar a
  | .group _ a => noGrpStar a

/-- mustBind, computed on the surface pattern. -/
def mustBindRX (n : Nat) : RX → Bool
  | .eps => false
  | .cls _ => false
  | .wordB => false
  | .cat a b => mustBindRX n a || mustBindRX n b
  | .alt a b => mustBindRX n a && mustBindRX n b
  | .starG _ => false
  | .starL _ => false
  | .group g a => (g == n) || mustBindRX n a

theorem groupsOf_repUpToG {b : RE} (hb : groupsOf b = []) :
    ∀ k, groupsOf (repUpToG b k) = [] := by
  intro k
  induction k with
  | zero => rfl
  | succ k ih => simp [repUpToG, groupsOf, hb, ih]

theorem groupsOf_repUpToL {b : RE} (hb : groupsOf b = []) :
    ∀ k, groupsOf (repUpToL b k) = [] := by
  intro k
  induction k with
  | zero => rfl
  | succ k ih => simp [repUpToL, groupsOf, hb, ih]

theorem mustBind_repUpToG (n : Nat) (b : RE) :
    ∀ k, mustBind n (repUpToG b k) = false := by
  intro k
  cases k with
  | zero => rfl
  | succ k => simp [repUpToG, mustBind]

theorem mustBind_repUpToL (n : Nat) (b : RE) :
    ∀ k, mustBind n (repUpToL b k) = false := by
  intro k
  cases k with
  | zero => rfl
  | succ k => simp [repUpToL, mustBind]

theorem groupsOf_unroll_nil : ∀ (rx : RX), groupsRX rx = [] →
    ∀ k, groupsOf (unroll k rx) = [] := by
  intro rx
  induction rx with
  | eps => intro _ k; rfl
  | cls f => intro _ k; rfl
  | wordB => intro _ k; rfl
  | cat a b iha ihb =>
    intro h k
    simp only [groupsRX, List.append_eq_nil] at h
    simp [unroll, groupsOf, iha h.1 k, ihb h.2 k]
  | alt a b iha ihb =>
    intro h k
    simp only [groupsRX, List.append_eq_nil] at h
    simp [unroll, groupsOf, iha h.1 k, ihb h.2 k]
  | starG a iha =>
    intro h k
    exact groupsOf_repUpToG (iha h k) k
  | starL a iha =>
    intro h k
    exact groupsOf_repUpToL (iha h k) k
  | group g a iha =>
    intro h k
    simp [groupsRX] at h

theorem groupsOf_unroll : ∀ (rx : RX), noGrpStar rx = true →
    ∀ k, groupsOf (unroll k rx) =
      (groupsRX rx).map fun q => (q.1, unroll k q.2) := by
  intro rx
  induction rx with
  | eps => intro _ k; rfl
  | cls f => intro _ k; rfl
  | wordB => intro _ k; rfl
  | cat a b iha ihb =>
    intro h k
    simp only [noGrpStar, Bool.and_eq_true] at h
    simp [unroll, groupsOf, groupsRX, iha h.1 k, ihb h.2 k]
  | alt a b iha ihb =>
    intro h k
    simp only [noGrpStar, Bool.and_eq_true] at h
    simp [unroll, groupsOf, groupsRX, iha h.1 k, ihb h.2 k]
  | starG a iha =>
    intro h k
    simp only [noGrpStar, Bool.and_eq_true, List.isEmpty_iff] at h
    simp [unroll, groupsOf_repUpToG (groupsOf_unroll_nil a h.1 k) k, groupsRX, h.1]
  | starL a iha =>
    intro h k
    simp only [noGrpStar, Bool.and_eq_true, List.isEmpty_iff] at h
    simp [unroll, groupsOf_repUpToL (groupsOf_unroll_nil a h.1 k) k, groupsRX, h.1]
  | group g a iha =>
    intro h k
    simp only [noGrpStar] at h
    simp [unroll, groupsOf, groupsRX, iha h k]

theorem mustBind_unroll : ∀ (rx : RX) (n k : Nat),
    mustBind n (unroll k rx) = mustBindRX n rx := by
  intro rx
  induction rx with
  | eps => intro n k; rfl
  | cls f => intro n k; rfl
  | wordB => intro n k; rfl
  | cat a b iha ihb => intro n k; simp [unroll, mustBind, mustBindRX, iha, ihb]
  | alt a b iha ihb => intro n k; simp [unroll, mustBind, mustBindRX, iha, ihb]
  | starG a iha => intro n k; simp [unroll, mustBindRX, mustBind_repUpToG]
  | starL a iha => intro n k; simp [unroll, mustBindRX, mustBind_repUpToL]
  | group g a iha => intro n k; simp [unroll, mustBind, mustBindRX, iha]

/-! ### Inverting the matching relation on the group bodies -/

theorem matches_eps_inv (h : Matches .eps t) : t = [] := by cases h; rfl

theorem matches_cls_inv {f : Char → Bool}
    (h : Matches (.cls f) t) : ∃ c, t = [c] ∧ f c = true := by
  cases h with
  | cls hf => exact ⟨_, rfl, hf⟩

theorem matches_cat_inv {a b : RE}
    (h : Matches (.cat a b) t) : ∃ u v, t = u ++ v ∧ Matches a u ∧ Matches b v := by
  cases h with
  | cat hu hv => exact ⟨_, _, rfl, hu, hv⟩

theorem matches_alt_inv {a b : RE}
    (h : Matches (.alt a b) t) : Matches a t ∨ Matches b t := by
  cases h with
  | altL h => exact Or.inl h
  | altR h => exact Or.inr h

/-- A match of `cls f · x` begins with a character of the class. -/
theorem matches_catClsHead {f : Char → Bool} {x : RE}
    (h : Matches (.cat (.cls f) x) t) : ∃ c u, t = c :: u ∧ f c = true := by
  obtain ⟨u, v, rfl, hu, hv⟩ := matches_cat_inv h
  obtain ⟨c, rfl, hc⟩ := matches_cls_inv hu
  exact ⟨c, v, rfl, hc⟩

/-- RE shape of a{0,j} over a character class (what `rxUpTo j (.cls f)`
unrolls to, for a concrete j). -/
def reUpToCls (f : Char → Bool) : Nat → RE
  | 0 => .eps
  | j + 1 => .alt (.cat (.cls f) (reUpToCls f j)) .eps

/-- RE shape of a{j} over a character class. -/
def reExactCls (f : Char → Bool) : Nat → RE
  | 0 => .eps
  | j + 1 => .cat (.cls f) (reExactCls f j)

theorem matches_reUpToCls {f : Char → Bool} :
    ∀ j t, Matches (reUpToCls f j) t → t.length ≤ j ∧ t.all f = true := by
  intro j
  induction j with
  | zero =>
    intro t h
    rw [matches_eps_inv h]
    exact ⟨Nat.le_refl 0, rfl⟩
  | succ j ih =>
    intro t h
    rcases matches_alt_inv h with h | h
    · obtain ⟨u, v, rfl, hu, hv⟩ := matches_cat_inv h
      obtain ⟨c, rfl, hc⟩ := matches_cls_inv hu
      obtain ⟨hlen, hall⟩ := ih v hv
      exact ⟨by simpa using Nat.succ_le_succ hlen, by simp [hc, hall]⟩
    · rw [matches_eps_inv h]
      exact ⟨Nat.zero_le _, rfl⟩

theorem matches_reExactCls {f : Char → Bool} :
    ∀ j t, Matches (reExactCls f j) t → t.length = j ∧ t.all f = true := by
  intro j
  induction j with
  | zero =>
    intro t h
    rw [matches_eps_inv h]
    exact ⟨rfl, rfl⟩
  | succ j ih =>
    intro t h
    obtain ⟨u, v, rfl, hu, hv⟩ := matches_cat_inv h
    obtain ⟨c, rfl, hc⟩ := matches_cls_inv hu
    obtain ⟨hlen, hall⟩ := ih v hv
    exact ⟨by simp [hlen], by simp [hc, hall]⟩

/-- A match of the ticker body `[A-Z]{1,5}` is 1–5 uppercase letters. -/
theorem matches_rep15 {k : Nat} {t : Str}
    (h : Matches (unroll k (rxRep 1 5 (.cls upperB))) t) :
    1 ≤ t.length ∧ t.length ≤ 5 ∧ t.all upperB = true := by
  have he : unroll k (rxRep 1 5 (.cls upperB)) =
      .cat (reExactCls upperB 1) (reUpToCls upperB 4) := rfl
  rw [he] at h
  obtain ⟨u, v, rfl, hu, hv⟩ := matches_cat_inv h
  obtain ⟨hul, hua⟩ := matches_reExactCls 1 u hu
  obtain ⟨hvl, hva⟩ := matches_reUpToCls 4 v hv
  refine ⟨?_, ?_, ?_⟩
  · simp [hul]
  · simp [hul]; omega
  · simp_all

/-- The MM/DD/YYYY shape produced by the date sub-pattern
`\d{1,2}/\d{1,2}/\d{4}`. -/
def IsDateStr (t : Str) : Prop :=
  ∃ a b c : Str, t = a ++ '/' :: (b ++ '/' :: c) ∧
    1 ≤ a.length ∧ a.length ≤ 2 ∧ a.all digitB = true ∧
    1 ≤ b.length ∧ b.length ≤ 2 ∧ b.all digitB = true ∧
    c.length = 4 ∧ c.all digitB = true

/-- A match of the date sub-pattern has the MM/DD/YYYY shape. -/
theorem matches_date {k : Nat} {t : Str}
    (h : Matches (unroll k rxDate) t) : IsDateStr t := by
  have he : unroll k rxDate =
      .cat (.cat (reExactCls digitB 1) (reUpToCls digitB 1))
        (.cat (.cls fun c => c == '/')
          (.cat (.cat (reExactCls digitB 1) (reUpToCls digitB 1))
            (.cat (.cls fun c => c == '/') (reExactCls digitB 4)))) := rfl
  rw [he] at h
  obtain ⟨a, r1, rfl, ha, h1⟩ := matches_cat_inv h
  obtain ⟨s1, r2, rfl, hs1, h2⟩ := matches_cat_inv h1
  obtain ⟨b, r3, rfl, hb, h3⟩ := matches_cat_inv h2
  obtain ⟨s2, c, rfl, hs2, hc⟩ := matches_cat_inv h3
  obtain ⟨c1, rfl, hc1⟩ := matches_cls_inv hs1
  obtain ⟨c2, rfl, hc2⟩ := matches_cls_inv hs2
  obtain rfl : c1 = '/' := by simpa [beq_iff_eq] using hc1
  obtain rfl : c2 = '/' := by simpa [beq_iff_eq] using hc2
  obtain ⟨a1, a2, rfl, ha1, ha2⟩ := matches_cat_inv ha
  obtain ⟨ha1l, ha1a⟩ := matches_reExactCls 1 a1 ha1
  obtain ⟨ha2l, ha2a⟩ := matches_reUpToCls 1 a2 ha2
  obtain ⟨b1, b2, rfl, hb1, hb2⟩ := matches_cat_inv hb
  obtain ⟨hb1l, hb1a⟩ := matches_reExactCls 1 b1 hb1
  obtain ⟨hb2l, hb2a⟩ := matches_reUpToCls 1 b2 hb2
  obtain ⟨hcl, hca⟩ := matches_reExactCls 4 c hc
  refine ⟨a1 ++ a2, b1 ++ b2, c, by simp, ?_, ?_, ?_, ?_, ?_, ?_, hcl, hca⟩
  · simp [ha1l]
  · simp [ha1l]; omega
  · simp_all
  · simp [hb1l]
  · simp [hb1l]; omega
  · simp_all

/-! ### Strip lemmas -/

theorem dropWhile_of_neg {p : Char → Bool} :
    ∀ t : Str, (∀ c ∈ t, p c = false) → t.dropWhile p = t := by
  intro t h
  cases t with
  | nil => rfl
  | cons c u =>
    rw [List.dropWhile_cons, if_neg]
    simp [h c (List.mem_cons_self ..)]

theorem pyStrip_of_nonWs {t : Str} (h : ∀ c ∈ t, wsB c = false) :
    pyStrip t = t := by
  unfold pyStrip
  rw [dropWhile_of_neg t h,
    dropWhile_of_neg t.reverse (fun c hc => h c (List.mem_reverse.mp hc)),
    List.reverse_reverse]

theorem pyStrip_cons_ne_nil {c : Char} {u : Str} (hc : wsB c = false) :
    pyStrip (c :: u) ≠ [] := by
  unfold pyStrip
  rw [List.dropWhile_cons, if_neg (by simp [hc])]
  intro h
  rw [List.reverse_eq_nil_iff, List.dropWhile_eq_nil_iff] at h
  have := h c (by simp)
  simp [hc] at this

theorem nonWs_of_upperB {c : Char} (h : upperB c = true) : wsB c = false := by
  by_contra hw
  rw [Bool.not_eq_false] at hw
  simp only [wsB, Bool.or_eq_true, beq_iff_eq] at hw
  rcases hw with ((((rfl | rfl) | rfl) | rfl) | rfl) | rfl <;> simp [upperB] at h

theorem nonWs_of_digitB {c : Char} (h : digitB c = true) : wsB c = false := by
  by_contra hw
  rw [Bool.not_eq_false] at hw
  simp only [wsB, Bool.or_eq_true, beq_iff_eq] at hw
  rcases hw with ((((rfl | rfl) | rfl) | rfl) | rfl) | rfl <;> simp [digitB] at h

theorem IsDateStr.strip {t : Str} (h : IsDateStr t) : pyStrip t = t := by
  obtain ⟨a, b, c, rfl, _, _, ha, _, _, hb, _, hc⟩ := h
  refine pyStrip_of_nonWs ?_
  intro x hx
  simp only [List.mem_append, List.mem_cons] at hx
  rcases hx with hx | rfl | hx | rfl | hx
  · exact nonWs_of_digitB (by revert hx; simpa using List.all_eq_true.mp ha x)
  · decide
  · exact nonWs_of_digitB (by revert hx; simpa using List.all_eq_true.mp hb x)
  · decide
  · exact nonWs_of_digitB (by revert hx; simpa using List.all_eq_true.mp hc x)

theorem IsDateStr.ne_nil {t : Str} (h : IsDateStr t) : t ≠ [] := by
  obtain ⟨a, b, c, rfl, _⟩ := h
  simp

theorem pyStrip_of_upper {t : Str} (h : t.all upperB = true) : pyStrip t = t :=
  pyStrip_of_nonWs fun c hc => nonWs_of_upperB (List.all_eq_true.mp h c hc)

/-! ### Facts about the captures of each pattern -/

/-- Generic transport: a fact holding of every match of every group-n body
of a pattern holds of the group-n capture of any successful search. -/
theorem cap_body_fact {rx : RX} {s : Str} {m : SRes} {n : Nat} {c : Str}
    (hs : reSearch rx s = some m) (hc : capGet m n = some c)
    (hng : noGrpStar rx = true) (P : Str → Prop)
    (hp : ∀ b, (n, b) ∈ groupsRX rx → ∀ t, Matches (unroll s.length b) t → P t) :
    P c := by
  obtain ⟨a, hmem, hma⟩ := reSearch_caps hs hc
  rw [groupsOf_unroll rx hng s.length] at hmem
  simp only [List.mem_map] at hmem
  obtain ⟨q, hq, heq⟩ := hmem
  rw [Prod.mk.injEq] at heq
  obtain ⟨h1, h2⟩ := heq
  exact hp q.2 (by rw [← h1]; exact hq) c (by rw [← h2] at hma; exact hma)

/-- Mandatory groups are always captured. -/
theorem capSome {rx : RX} {s : Str} {m : SRes} (n : Nat)
    (hs : reSearch rx s = some m) (hn : mustBindRX n rx = true) :
    ∃ c, capGet m n = some c :=
  reSearch_mustBind hs (by rw [mustBind_unroll]; exact hn)

theorem groupsRX_P1 : groupsRX rxP1 =
    [(1, .cat (.cls upperB) (.starL (.cls dotB))),
     (2, rxRep 1 5 (.cls upperB)), (3, .cls psB),
     (4, rxDate), (5, rxDate), (6, rxAmt)] := rfl

theorem groupsRX_P2 : groupsRX rxP2 =
    [(1, .cat (.cls upperB) (.starL (.cls notPB))),
     (2, .cls psB), (3, rxDate), (4, rxDate), (5, rxAmt)] := rfl

theorem groupsRX_P3 : groupsRX rxP3 =
    [(1, .cat (.cls upperB) (.starL (.cls notPB))),
     (2, .cls psB), (3, rxDate), (4, rxDate), (5, rxAmt)] := rfl

theorem groupsRX_Ticker : groupsRX rxTicker = [(1, rxRep 1 5 (.cls upperB))] := rfl

theorem groupsRX_DateWord : groupsRX rxDateWord = [(1, rxDate)] := rfl

/-- Group 1 of pattern 1 (the asset name) starts with an uppercase letter. -/
theorem capP1_asset {s : Str} {m : SRes} {c : Str}
    (hs : reSearch rxP1 s = some m) (hc : capGet m 1 = some c) :
    ∃ ch u, c = ch :: u ∧ upperB ch = true := by
  refine cap_body_fact hs hc rfl (fun t => ∃ ch u, t = ch :: u ∧ upperB ch = true) ?_
  intro b hb t hm
  rw [groupsRX_P1] at hb
  simp only [List.mem_cons, Prod.mk.injEq, List.not_mem_nil] at hb
  rcases hb with ⟨_, rfl⟩ | ⟨h, _⟩ | ⟨h, _⟩ | ⟨h, _⟩ | ⟨h, _⟩ | ⟨h, _⟩ | h
  · exact matches_catClsHead hm
  all_goals simp_all

/-- Group 2 of pattern 1 (the ticker) is 1–5 uppercase letters. -/
theorem capP1_ticker {s : Str} {m : SRes} {c : Str}
    (hs : reSearch rxP1 s = some m) (hc : capGet m 2 = some c) :
    1 ≤ c.length ∧ c.length ≤ 5 ∧ c.all upperB = true := by
  refine cap_body_fact hs hc rfl
    (fun t => 1 ≤ t.length ∧ t.length ≤ 5 ∧ t.all upperB = true) ?_
  intro b hb t hm
  rw [groupsRX_P1] at hb
  simp only [List.mem_cons, Prod.mk.injEq, List.not_mem_nil] at hb
  rcases hb with ⟨h, _⟩ | ⟨_, rfl⟩ | ⟨h, _⟩ | ⟨h, _⟩ | ⟨h, _⟩ | ⟨h, _⟩ | h
  · simp_all
  · exact matches_rep15 hm
  all_goals simp_all

/-- Groups 4 and 5 of pattern 1 (the two dates) have the date shape. -/
theorem capP1_date {s : Str} {m : SRes} {c : Str} {n : Nat}
    (hn : n = 4 ∨ n = 5)
    (hs : reSearch rxP1 s = some m) (hc : capGet m n = some c) :
    IsDateStr c := by
  refine cap_body_fact hs hc rfl IsDateStr ?_
  intro b hb t hm
  rw [groupsRX_P1] at hb
  rcases hn with rfl | rfl <;>
    simp only [List.mem_cons, Prod.mk.injEq, List.not_mem_nil] at hb <;>
    rcases hb with ⟨h, hb⟩ | ⟨h, hb⟩ | ⟨h, hb⟩ | ⟨h, hb⟩ | ⟨h, hb⟩ | ⟨h, hb⟩ | h <;>
    first
      | (exact matches_date (by rw [hb] at hm; exact hm))
      | simp_all

/-- Group 1 of patterns 2 and 3 (the asset name) starts with an uppercase
letter. -/
theorem capP23_asset {s : Str} {m : SRes} {c : Str} {rx : RX}
    (hrx : rx = rxP2 ∨ rx = rxP3)
    (hs : reSearch rx s = some m) (hc : capGet m 1 = some c) :
    ∃ ch u, c = ch :: u ∧ upperB ch = true := by
  rcases hrx with rfl | rfl <;>
  · refine cap_body_fact hs hc rfl (fun t => ∃ ch u, t = ch :: u ∧ upperB ch = true) ?_
    intro b hb t hm
    first | rw [groupsRX_P2] at hb | rw [groupsRX_P3] at hb
    simp only [List.mem_cons, Prod.mk.injEq, List.not_mem_nil] at hb
    rcases hb with ⟨_, rfl⟩ | ⟨h, _⟩ | ⟨h, _⟩ | ⟨h, _⟩ | ⟨h, _⟩ | h
    · exact matches_catClsHead hm
    all_goals simp_all

/-- Groups 3 and 4 of patterns 2 and 3 (the two dates) have the date
shape. -/
theorem capP23_date {s : Str} {m : SRes} {c : Str} {rx : RX} {n : Nat}
    (hrx : rx = rxP2 ∨ rx = rxP3) (hn : n = 3 ∨ n = 4)
    (hs : reSearch rx s = some m) (hc : capGet m n = some c) :
    IsDateStr c := by
  rcases hrx with rfl | rfl <;>
  · refine cap_body_fact hs hc rfl IsDateStr ?_
    intro b hb t hm
    first | rw [groupsRX_P2] at hb | rw [groupsRX_P3] at hb
    rcases hn with rfl | rfl <;>
      simp only [List.mem_cons, Prod.mk.injEq, List.not_mem_nil] at hb <;>
      rcases hb with ⟨h, hb⟩ | ⟨h, hb⟩ | ⟨h, hb⟩ | ⟨h, hb⟩ | ⟨h, hb⟩ | h <;>
      first
        | (exact matches_date (by rw [hb] at hm; exact hm))
        | simp_all

/-- Group 1 of the ticker pattern is 1–5 uppercase letters. -/
theorem capTicker {s : Str} {m : SRes} {c : Str}
    (hs : reSearch rxTicker s = some m) (hc : capGet m 1 = some c) :
    1 ≤ c.length ∧ c.length ≤ 5 ∧ c.all upperB = true := by
  refine cap_body_fact hs hc rfl
    (fun t => 1 ≤ t.length ∧ t.length ≤ 5 ∧ t.all upperB = true) ?_
  intro b hb t hm
  rw [groupsRX_Ticker] at hb
  simp only [List.mem_cons, Prod.mk.injEq, List.not_mem_nil] at hb
  rcases hb with ⟨_, rfl⟩ | h
  · exact matches_rep15 hm
  · simp_all

/-- Group 1 of the date-word pattern has the date shape. -/
theorem capDateWord {s : Str} {m : SRes} {c : Str}
    (hs : reSearch rxDateWord s = some m) (hc : capGet m 1 = some c) :
    IsDateStr c := by
  refine cap_body_fact hs hc rfl IsDateStr ?_
  intro b hb t hm
  rw [groupsRX_DateWord] at hb
  simp only [List.mem_cons, Prod.mk.injEq, List.not_mem_nil] at hb
  rcases hb with ⟨_, rfl⟩ | h
  · exact matches_date hm
  · simp_all


/-! ### Inverting the parser's branch structure -/

theorem findSome_inv {α β : Type} {f : α → Option β} :
    ∀ (l : List α) (v : β), l.findSome? f = some v → ∃ x ∈ l, f x = some v := by
  intro l
  induction l with
  | nil => intro v h; simp [List.findSome?] at h
  | cons c t ih =>
    intro v h
    rw [List.findSome?] at h
    cases hf : f c with
    | some b =>
      rw [hf] at h
      exact ⟨c, List.mem_cons_self .., by rw [hf]; exact h⟩
    | none =>
      rw [hf] at h
      obtain ⟨x, hx, hfx⟩ := ih v h
      exact ⟨x, List.mem_cons_of_mem _ hx, hfx⟩

theorem p3_cases {line : Str} {lines : List Str} {i : Nat} {r : Trade}
    (h : pyP3Branch line lines i = some r) :
    ∃ m3, reSearch rxP3 line = some m3 ∧ i + 1 < lines.length ∧
      r = recP3 line lines i m3 := by
  unfold pyP3Branch at h
  split at h
  case h_1 m3 hm3 =>
    split at h
    case isTrue hlt => exact ⟨m3, hm3, hlt, (Option.some_inj.mp h).symm⟩
    case isFalse => exact absurd h (by simp)
  case h_2 => exact absurd h (by simp)

theorem ptr_cases {line : Str} {lines : List Str} {i : Nat} {r : Trade}
    (h : pyParsePtrTradeLine line lines i = some r) :
    (∃ m, reSearch rxP1 line = some m ∧ r = recP1 line lines i m) ∨
    (∃ m2 tm, reSearch rxP2 line = some m2 ∧ i + 1 < lines.length ∧
      reSearch rxTicker (lines.getD (i + 1) []) = some tm ∧
      r = recP2 line (lines.getD (i + 1) []) lines i m2 tm) ∨
    (∃ m3, reSearch rxP3 line = some m3 ∧ i + 1 < lines.length ∧
      r = recP3 line lines i m3) := by
  unfold pyParsePtrTradeLine at h
  split at h
  case h_1 m hm => exact Or.inl ⟨m, hm, (Option.some_inj.mp h).symm⟩
  case h_2 hm1 =>
    split at h
    case h_1 m2 hm2 =>
      split at h
      case isTrue hlt =>
        split at h
        case h_1 tm htm =>
          exact Or.inr (Or.inl ⟨m2, tm, hm2, hlt, htm, (Option.some_inj.mp h).symm⟩)
        case h_2 => exact Or.inr (Or.inr (p3_cases h))
      case isFalse => exact Or.inr (Or.inr (p3_cases h))
    case h_2 => exact Or.inr (Or.inr (p3_cases h))

theorem parse_cases {line : Str} {lines : List Str} {i : Nat} {r : Trade}
    (h : pyParseTradeLine line lines i = some r) :
    pyParsePtrTradeLine line lines i = some r ∨
    (pyParsePtrTradeLine line lines i = none ∧
      ∃ action asset tk tt, pyExtractAction line = some action ∧
        pyExtractAssetAndType line = some (asset, tk, tt) ∧ 2 < asset.length ∧
        r = recHeur line lines i action asset tk tt) := by
  unfold pyParseTradeLine at h
  split at h
  case h_1 t ht => exact Or.inl (by rw [ht, h])
  case h_2 hnone =>
    split at h
    case h_1 => exact absurd h (by simp)
    case h_2 action ha =>
      split at h
      case h_1 => exact absurd h (by simp)
      case h_2 asset tk tt hat =>
        split at h
        case isTrue hlen =>
          exact Or.inr ⟨hnone, action, asset, tk, tt, ha, hat, hlen,
            (Option.some_inj.mp h).symm⟩
        case isFalse => exact absurd h (by simp)

/-! ### Per-branch field facts -/

theorem psToAction_cases (s : Str) :
    psToAction s = "BUY".data ∨ psToAction s = "SELL".data := by
  unfold psToAction
  split
  · exact Or.inl rfl
  · exact Or.inr rfl

theorem extractAction_cases {line : Str} {a : Str}
    (h : pyExtractAction line = some a) :
    a = "BUY".data ∨ a = "SELL".data := by
  unfold pyExtractAction at h
  split at h
  · exact Or.inl (Option.some_inj.mp h).symm
  · split at h
    · exact Or.inr (Option.some_inj.mp h).symm
    · exact absurd h (by simp)

/-- The ticker coming out of `_extract_asset_and_type` is Python None or a
1–5-letter uppercase capture of the ticker pattern. -/
theorem assetType_ticker {line asset : Str} {tk : Option Str} {tt : PyTradeType}
    (h : pyExtractAssetAndType line = some (asset, tk, tt)) :
    tk = none ∨ ∃ t, tk = some t ∧ 1 ≤ t.length ∧ t.length ≤ 5 ∧
      t.all upperB = true := by
  unfold pyExtractAssetAndType at h
  split at h
  case h_1 q hq =>
    rw [Option.some_inj.mp h] at hq
    split at hq
    case isTrue =>
      split at hq
      case h_1 m hm =>
        simp only [Option.some_inj, Prod.mk.injEq] at hq
        obtain ⟨-, htk, -⟩ := hq
        obtain ⟨c, hc⟩ := capSome 1 hm rfl
        refine Or.inr ⟨c, ?_, capTicker hm hc⟩
        rw [← htk]
        simp [capD, hc]
      case h_2 => exact absurd hq (by simp)
    case isFalse => exact absurd hq (by simp)
  case h_2 =>
    split at h
    case h_1 m hm =>
      simp only [Option.some_inj, Prod.mk.injEq] at h
      obtain ⟨-, htk, -⟩ := h
      cases htm : reSearch rxTicker line with
      | none => rw [htm] at htk; exact Or.inl htk.symm
      | some tm =>
        rw [htm] at htk
        obtain ⟨c, hc⟩ := capSome 1 htm rfl
        refine Or.inr ⟨c, ?_, capTicker htm hc⟩
        rw [← htk]
        simp [capD, hc]
    case h_2 => exact absurd h (by simp)

theorem ptd_pos {line : Str} {lines : List Str} {i : Nat} {m : SRes}
    (hd : reSearch rxDateWord line = some m) :
    pyExtractTransactionDate line lines i = capD m 1 := by
  unfold pyExtractTransactionDate
  rw [hd]

theorem ptd_neg {line : Str} {lines : List Str} {i : Nat}
    (hd : reSearch rxDateWord line = none) :
    pyExtractTransactionDate line lines i =
      ((((lines.drop (i - 2)).take (min lines.length (i + 3) - (i - 2))).findSome?
        fun l => (reSearch rxDateWord l).map fun m => capD m 1).getD
          "Unknown".data) := by
  unfold pyExtractTransactionDate
  rw [hd]

/-- `_extract_transaction_date` returns a date-shaped token or the Unknown
sentinel. -/
theorem transDate_shape (line : Str) (lines : List Str) (i : Nat) :
    IsDateStr (pyExtractTransactionDate line lines i) ∨
    pyExtractTransactionDate line lines i = "Unknown".data := by
  cases hd : reSearch rxDateWord line with
  | some m =>
    obtain ⟨c, hc⟩ := capSome 1 hd rfl
    rw [ptd_pos hd]
    refine Or.inl ?_
    have hcd : capD m 1 = c := by simp [capD, hc]
    rw [hcd]
    exact capDateWord hd hc
  | none =>
    rw [ptd_neg hd]
    cases hf : ((lines.drop (i - 2)).take (min lines.length (i + 3) - (i - 2))).findSome?
        (fun l => (reSearch rxDateWord l).map fun m => capD m 1) with
    | none => exact Or.inr rfl
    | some v =>
      obtain ⟨x, -, hfx⟩ := findSome_inv _ v hf
      obtain ⟨m, hm, hv⟩ := Option.map_eq_some'.mp hfx
      obtain ⟨c, hc⟩ := capSome 1 hm rfl
      refine Or.inl ?_
      show IsDateStr v
      rw [← hv]
      have hcd : capD m 1 = c := by simp [capD, hc]
      rw [hcd]
      exact capDateWord hm hc

/-! ### Field facts for each record builder -/

theorem recP1_dates {line : Str} {lines : List Str} {i : Nat} {m : SRes}
    (hm : reSearch rxP1 line = some m) :
    (∃ d, (recP1 line lines i m).notification_date = some d ∧ IsDateStr d) ∧
    IsDateStr (recP1 line lines i m).transaction_date := by
  obtain ⟨c4, hc4⟩ := capSome 4 hm rfl
  obtain ⟨c5, hc5⟩ := capSome 5 hm rfl
  have h4 := capP1_date (Or.inl rfl) hm hc4
  have h5 := capP1_date (Or.inr rfl) hm hc5
  have e4 : capD m 4 = c4 := by simp [capD, hc4]
  have e5 : capD m 5 = c5 := by simp [capD, hc5]
  constructor
  · refine ⟨pyStrip (capD m 5), rfl, ?_⟩
    rw [e5, h5.strip]
    exact h5
  · show IsDateStr (pyStrip (capD m 4))
    rw [e4, h4.strip]
    exact h4

theorem recP2_dates {line nxt : Str} {lines : List Str} {i : Nat} {m2 tm : SRes}
    (hm : reSearch rxP2 line = some m2) :
    (∃ d, (recP2 line nxt lines i m2 tm).notification_date = some d ∧ IsDateStr d) ∧
    IsDateStr (recP2 line nxt lines i m2 tm).transaction_date := by
  obtain ⟨c3, hc3⟩ := capSome 3 hm rfl
  obtain ⟨c4, hc4⟩ := capSome 4 hm rfl
  have h3 := capP23_date (Or.inl rfl) (Or.inl rfl) hm hc3
  have h4 := capP23_date (Or.inl rfl) (Or.inr rfl) hm hc4
  have e3 : capD m2 3 = c3 := by simp [capD, hc3]
  have e4 : capD m2 4 = c4 := by simp [capD, hc4]
  constructor
  · refine ⟨pyStrip (capD m2 4), rfl, ?_⟩
    rw [e4, h4.strip]
    exact h4
  · show IsDateStr (pyStrip (capD m2 3))
    rw [e3, h3.strip]
    exact h3

theorem recP3_dates {line : Str} {lines : List Str} {i : Nat} {m3 : SRes}
    (hm : reSearch rxP3 line = some m3) :
    (∃ d, (recP3 line lines i m3).notification_date = some d ∧ IsDateStr d) ∧
    IsDateStr (recP3 line lines i m3).transaction_date := by
  obtain ⟨c3, hc3⟩ := capSome 3 hm rfl
  obtain ⟨c4, hc4⟩ := capSome 4 hm rfl
  have h3 := capP23_date (Or.inr rfl) (Or.inl rfl) hm hc3
  have h4 := capP23_date (Or.inr rfl) (Or.inr rfl) hm hc4
  have e3 : capD m3 3 = c3 := by simp [capD, hc3]
  have e4 : capD m3 4 = c4 := by simp [capD, hc4]
  constructor
  · refine ⟨pyStrip (capD m3 4), rfl, ?_⟩
    rw [e4, h4.strip]
    exact h4
  · show IsDateStr (pyStrip (capD m3 3))
    rw [e3, h3.strip]
    exact h3

/-- Any record produced by the structural parser carries both dates, each
of the MM/DD/YYYY shape. -/
theorem ptr_dates {line : Str} {lines : List Str} {i : Nat} {r : Trade}
    (h : pyParsePtrTradeLine line lines i = some r) :
    (∃ d, r.notification_date = some d ∧ IsDateStr d) ∧
    IsDateStr r.transaction_date := by
  rcases ptr_cases h with ⟨m, hm, rfl⟩ | ⟨m2, tm, hm2, -, -, rfl⟩ | ⟨m3, hm3, -, rfl⟩
  · exact recP1_dates hm
  · exact recP2_dates hm2
  · exact recP3_dates hm3

/-- The ticker sentinel-or-uppercase property of any record. -/
def TickerOK (r : Trade) : Prop :=
  r.ticker = none ∨ r.ticker = some "N/A".data ∨
    ∃ t, r.ticker = some t ∧ 1 ≤ t.length ∧ t.length ≤ 5 ∧ t.all upperB = true

theorem ticker_recP1 {line : Str} {lines : List Str} {i : Nat} {m : SRes}
    (hm : reSearch rxP1 line = some m) : TickerOK (recP1 line lines i m) := by
  obtain ⟨c, hc⟩ := capSome 2 hm rfl
  obtain ⟨h1, h2, h3⟩ := capP1_ticker hm hc
  have e : capD m 2 = c := by simp [capD, hc]
  refine Or.inr (Or.inr ⟨c, ?_, h1, h2, h3⟩)
  show some (pyStrip (capD m 2)) = some c
  rw [e, pyStrip_of_upper h3]

theorem ticker_recP2 {line nxt : Str} {lines : List Str} {i : Nat} {m2 tm : SRes}
    (htm : reSearch rxTicker nxt = some tm) :
    TickerOK (recP2 line nxt lines i m2 tm) := by
  obtain ⟨c, hc⟩ := capSome 1 htm rfl
  obtain ⟨h1, h2, h3⟩ := capTicker htm hc
  have e : capD tm 1 = c := by simp [capD, hc]
  refine Or.inr (Or.inr ⟨c, ?_, h1, h2, h3⟩)
  show some (pyStrip (capD tm 1)) = some c
  rw [e, pyStrip_of_upper h3]

theorem ticker_recP3 {line : Str} {lines : List Str} {i : Nat} {m3 : SRes} :
    TickerOK (recP3 line lines i m3) := Or.inr (Or.inl rfl)

/-- The asset-name/action validity of a record. -/
def RecordValid (r : Trade) : Prop :=
  r.asset_name ≠ [] ∧ (r.action = "BUY".data ∨ r.action = "SELL".data)

theorem asset_strip_ne_nil {c : Str} (h : ∃ ch u, c = ch :: u ∧ upperB ch = true) :
    pyStrip c ≠ [] := by
  obtain ⟨ch, u, rfl, hch⟩ := h
  exact pyStrip_cons_ne_nil (nonWs_of_upperB hch)

theorem valid_recP1 {line : Str} {lines : List Str} {i : Nat} {m : SRes}
    (hm : reSearch rxP1 line = some m) : RecordValid (recP1 line lines i m) := by
  obtain ⟨c, hc⟩ := capSome 1 hm rfl
  have e : capD m 1 = c := by simp [capD, hc]
  constructor
  · show pyStrip (capD m 1) ≠ []
    rw [e]
    exact asset_strip_ne_nil (capP1_asset hm hc)
  · exact psToAction_cases _

theorem valid_recP2 {line nxt : Str} {lines : List Str} {i : Nat} {m2 tm : SRes}
    (hm2 : reSearch rxP2 line = some m2) :
    RecordValid (recP2 line nxt lines i m2 tm) := by
  obtain ⟨c2, hc2⟩ := capSome 1 hm2 rfl
  have e2 : capD m2 1 = c2 := by simp [capD, hc2]
  refine ⟨?_, psToAction_cases _⟩
  show pyStrip (capD m2 1) ≠ []
  rw [e2]
  exact asset_strip_ne_nil (capP23_asset (Or.inl rfl) hm2 hc2)

theorem valid_recP3 {line : Str} {lines : List Str} {i : Nat} {m3 : SRes}
    (hm3 : reSearch rxP3 line = some m3) :
    RecordValid (recP3 line lines i m3) := by
  obtain ⟨c3, hc3⟩ := capSome 1 hm3 rfl
  have e3 : capD m3 1 = c3 := by simp [capD, hc3]
  refine ⟨?_, psToAction_cases _⟩
  show pyStrip (capD m3 1) ≠ []
  rw [e3]
  exact asset_strip_ne_nil (capP23_asset (Or.inr rfl) hm3 hc3)

/-! ### The description extractor, specification side

`claimDescScan` follows claim C8's words as written ("appended verbatim
(after stripping null bytes)"): apart from null-byte removal the lines are
kept verbatim.  `specExtractDescription` follows the amended wording
(lines are also whitespace-stripped, as the code does), phrased as the
two-phase scan the spec describes: seek the first D: line (stopping at a
next-record marker), then collect until a marker line. -/

def claimDescScan : List Str → Bool → List Str
  | [], _ => []
  | l :: rest, foundD =>
    let cleaned := stripNulls l
    if startsW ['D', ':'] cleaned then
      cleaned.drop 2 :: claimDescScan rest true
    else if foundD then
      if startsW ['S', 'P', ' '] cleaned || startsW ['L', ':'] cleaned then []
      else cleaned :: claimDescScan rest true
    else if startsW ['S', 'P', ' '] cleaned then []
    else claimDescScan rest false

/-- Claim C8 read literally: the 9-line window, accumulation from the D:
marker, null bytes stripped but lines otherwise verbatim. -/
def claimExtractDescription (lines : List Str) (i : Nat) : Str :=
  joinSp (claimDescScan ((lines.drop (i + 1)).take 9) false)

/-- Phase 1 of the amended description scan: find the first D: line in the
window, stopping early at a next-record marker. -/
def specSeekD : List Str → Option (Str × List Str)
  | [] => none
  | l :: rest =>
    let c := pyStrip (stripNulls (pyStrip l))
    if startsW ['D', ':'] c then some (pyStrip (c.drop 2), rest)
    else if startsW ['S', 'P', ' '] c then none
    else specSeekD rest

/-- Phase 2: collect cleaned lines until a next-record or end-of-section
marker; later D: lines contribute their marker-stripped remainder. -/
def specCollectD : List Str → List Str
  | [] => []
  | l :: rest =>
    let c := pyStrip (stripNulls (pyStrip l))
    if startsW ['D', ':'] c then pyStrip (c.drop 2) :: specCollectD rest
    else if startsW ['S', 'P', ' '] c || startsW ['L', ':'] c then []
    else c :: specCollectD rest

/-- The amended claim C8 as a function: each scanned line is stripped of
null bytes and surrounding whitespace; otherwise the scan is as claimed. -/
def specExtractDescription (lines : List Str) (i : Nat) : Str :=
  if lines.isEmpty then []
  else
    match specSeekD ((lines.drop (i + 1)).take 9) with
    | none => []
    | some q => joinSp (q.1 :: specCollectD q.2)

theorem descScan_true : ∀ ls, descScan ls true = specCollectD ls := by
  intro ls
  induction ls with
  | nil => rfl
  | cons l rest ih =>
    by_cases hd : startsW ['D', ':'] (pyStrip (stripNulls (pyStrip l))) = true
    · simp [descScan, specCollectD, hd, ih]
    · by_cases hsp : (startsW ['S', 'P', ' '] (pyStrip (stripNulls (pyStrip l)))
          || startsW ['L', ':'] (pyStrip (stripNulls (pyStrip l)))) = true
      · simp [descScan, specCollectD, hd, hsp]
      · simp [descScan, specCollectD, hd, hsp, ih]

theorem descScan_false : ∀ ls, descScan ls false =
    (match specSeekD ls with
     | none => []
     | some q => q.1 :: specCollectD q.2) := by
  intro ls
  induction ls with
  | nil => rfl
  | cons l rest ih =>
    by_cases hd : startsW ['D', ':'] (pyStrip (stripNulls (pyStrip l))) = true
    · simp [descScan, specSeekD, hd, descScan_true]
    · by_cases hsp : startsW ['S', 'P', ' '] (pyStrip (stripNulls (pyStrip l))) = true
      · simp [descScan, specSeekD, hd, hsp]
      · simp [descScan, specSeekD, hd, hsp, ih]

/-- C8 (amended): the description extractor scans at most 9 lines from
index+1; a D: line starts the accumulation with its whitespace-stripped
remainder; every subsequent line is appended after stripping null bytes
and surrounding whitespace, until a line starting with "SP " or "L:"
stops the scan; the fragments are joined by single spaces, and the result
is empty when no D: line occurs in the window.  Stated as equality with
the two-phase specification function. -/
theorem c8_description_refinement (lines : List Str) (i : Nat) :
    pyExtractDescription lines i = specExtractDescription lines i := by
  unfold pyExtractDescription specExtractDescription
  by_cases he : lines.isEmpty = true
  · simp [he]
  · simp only [he, Bool.false_eq_true, if_false]
    rw [descScan_false]
    cases specSeekD ((lines.drop (i + 1)).take 9) with
    | none => rfl
    | some q => rfl

/-! ### A completeness fragment: a dollar token forces the first amount
pattern to match

The amended claim C6 is universal: the Over/Under/to branches of
`_extract_amount_range` are unreachable because any line they match
contains a `$<digits>` token, at which the first pattern `rxAmt1` (all of
whose trailing parts are optional) must already match.  The lemmas below
establish this: membership introduction rules for `mrun`, the fact that a
non-empty `mrun` at any split of the input makes the search succeed, the
decomposition of a successful search into a matched segment, and the
extraction of a `$<digit>` position from any match of the Over/Under/to
patterns. -/

theorem mem_mrun_eps {s : Str} {p : Option Char} {caps : List (Nat × Str)} :
    (⟨s, p, caps⟩ : MRes) ∈ mrun .eps s p caps := by
  simp [mrun]

theorem mem_mrun_cls {f : Char → Bool} {c : Char} {t : Str} {p : Option Char}
    {caps : List (Nat × Str)} (hf : f c = true) :
    (⟨t, some c, caps⟩ : MRes) ∈ mrun (.cls f) (c :: t) p caps := by
  simp [mrun, hf]

theorem mem_mrun_cat {a b : RE} {s : Str} {p : Option Char}
    {caps : List (Nat × Str)} {r1 r2 : MRes}
    (h1 : r1 ∈ mrun a s p caps) (h2 : r2 ∈ mrun b r1.rest r1.prev r1.caps) :
    r2 ∈ mrun (.cat a b) s p caps := by
  simp only [mrun, List.mem_flatMap]
  exact ⟨r1, h1, h2⟩

theorem mem_mrun_altR {a b : RE} {s : Str} {p : Option Char}
    {caps : List (Nat × Str)} {r : MRes} (h : r ∈ mrun b s p caps) :
    r ∈ mrun (.alt a b) s p caps := by
  simp only [mrun, List.mem_append]
  exact Or.inr h

theorem mem_mrun_group {n : Nat} {a : RE} {s : Str} {p : Option Char}
    {caps : List (Nat × Str)} {r : MRes} (h : r ∈ mrun a s p caps) :
    (⟨r.rest, r.prev, (n, s.take (s.length - r.rest.length)) :: r.caps⟩ : MRes) ∈
      mrun (.group n a) s p caps := by
  simp only [mrun, List.mem_map]
  exact ⟨r, h, rfl⟩

theorem mem_mrun_repUpToG_nil {b : RE} {k : Nat} {s : Str} {p : Option Char}
    {caps : List (Nat × Str)} :
    (⟨s, p, caps⟩ : MRes) ∈ mrun (repUpToG b k) s p caps := by
  cases k with
  | zero => exact mem_mrun_eps
  | succ k => exact mem_mrun_altR mem_mrun_eps

/-- The first amount pattern matches at any `$<digit-or-comma>` position:
its mandatory part is `\$[0-9,]+` and everything after is optional. -/
theorem mrun_amt1_at {k : Nat} {d : Char} (hd : digitCommaB d = true)
    (v : Str) (p : Option Char) :
    mrun (unroll k rxAmt1) ('$' :: d :: v) p [] ≠ [] := by
  have he : unroll k rxAmt1 = .cat (.cls fun x => x == '$')
      (.cat (.group 1 (.cat (.cls digitCommaB) (repUpToG (.cls digitCommaB) k)))
        (.cat (.alt (.cls fun x => x == '-') .eps)
          (.cat (.alt (.cls fun x => x == '$') .eps)
            (.alt (.group 2 (.cat (.cls digitCommaB)
              (repUpToG (.cls digitCommaB) k))) .eps)))) := rfl
  have tail : ∀ (s' : Str) (p' : Option Char) (caps' : List (Nat × Str)),
      (⟨s', p', caps'⟩ : MRes) ∈ mrun (.cat (.alt (.cls fun x => x == '-') .eps)
        (.cat (.alt (.cls fun x => x == '$') .eps)
          (.alt (.group 2 (.cat (.cls digitCommaB)
            (repUpToG (.cls digitCommaB) k))) .eps))) s' p' caps' := by
    intro s' p' caps'
    refine mem_mrun_cat (mem_mrun_altR mem_mrun_eps) ?_
    exact mem_mrun_cat (mem_mrun_altR mem_mrun_eps) (mem_mrun_altR mem_mrun_eps)
  have h2 : (⟨v, some d, ([] : List (Nat × Str))⟩ : MRes) ∈
      mrun (.cat (.cls digitCommaB) (repUpToG (.cls digitCommaB) k))
        (d :: v) (some '$') [] :=
    mem_mrun_cat (mem_mrun_cls hd) mem_mrun_repUpToG_nil
  have h3 := mem_mrun_group (n := 1) h2
  have h4 := mem_mrun_cat h3 (tail _ _ _)
  rw [he]
  exact List.ne_nil_of_mem (mem_mrun_cat (mem_mrun_cls (by simp)) h4)

/-- The character just before a given suffix of the input, as the search
threads it. -/
def prevOf (p : Option Char) : Str → Option Char
  | [] => p
  | c :: u => prevOf (some c) u

/-- If the matcher succeeds at some split of the input, the search
succeeds (at that position or an earlier one). -/
theorem searchAux_isSome_append (re : RE) :
    ∀ (u v : Str) (p : Option Char) (i : Nat),
    mrun re v (prevOf p u) [] ≠ [] → (searchAux re (u ++ v) p i).isSome = true := by
  intro u
  induction u with
  | nil =>
    intro v p i h
    cases v with
    | nil =>
      simp only [List.nil_append, searchAux]
      cases hm : mrun re [] p [] with
      | nil => exact absurd hm h
      | cons r rs => simp
    | cons c t =>
      simp only [List.nil_append, searchAux]
      cases hm : mrun re (c :: t) p [] with
      | nil => exact absurd hm h
      | cons r rs => simp
  | cons c u' ih =>
    intro v p i h
    show (searchAux re (c :: (u' ++ v)) p i).isSome = true
    have h' : mrun re v (prevOf (some c) u') [] ≠ [] := h
    simp only [searchAux]
    cases hm : mrun re (c :: (u' ++ v)) p [] with
    | cons r rs => simp
    | nil => exact ih v (some c) (i + 1) h'

theorem reSearch_isSome_of_split (rx : RX) (u v : Str)
    (h : ∀ p, mrun (unroll (u ++ v).length rx) v p [] ≠ []) :
    (reSearch rx (u ++ v)).isSome = true :=
  searchAux_isSome_append (unroll (u ++ v).length rx) u v none 0 (h _)

/-- A successful search decomposes the input around a matched segment. -/
theorem searchAux_split (re : RE) : ∀ (s : Str) (p : Option Char) (i : Nat)
    (m : SRes), searchAux re s p i = some m →
    ∃ u t, s = u ++ t ++ m.rest ∧ Matches re t := by
  intro s
  induction s with
  | nil =>
    intro p i m hm
    simp only [searchAux] at hm
    split at hm
    case h_1 r _ hr =>
      obtain rfl : (⟨i, r.rest, r.caps⟩ : SRes) = m := by injection hm
      have hmem : r ∈ mrun re [] p [] := by rw [hr]; exact List.mem_cons_self ..
      obtain ⟨⟨t, ht, hmt⟩, -⟩ := mrun_sound re [] p [] r hmem
      exact ⟨[], t, by simpa using ht, hmt⟩
    case h_2 => exact absurd hm (by simp)
  | cons c s' ih =>
    intro p i m hm
    simp only [searchAux] at hm
    split at hm
    case h_1 r _ hr =>
      obtain rfl : (⟨i, r.rest, r.caps⟩ : SRes) = m := by injection hm
      have hmem : r ∈ mrun re (c :: s') p [] := by
        rw [hr]; exact List.mem_cons_self ..
      obtain ⟨⟨t, ht, hmt⟩, -⟩ := mrun_sound re (c :: s') p [] r hmem
      exact ⟨[], t, by simpa using ht, hmt⟩
    case h_2 =>
      obtain ⟨u, t, ht, hmt⟩ := ih (some c) (i + 1) m hm
      exact ⟨c :: u, t, by simp [ht], hmt⟩

theorem matches_grp_inv {n : Nat} {a : RE} {t : Str}
    (h : Matches (.group n a) t) : Matches a t := by
  cases h with
  | grp h => exact h

/-- Any match of the Over pattern contains a `$<digit-or-comma>`
position. -/
theorem matches_over_dollar {k : Nat} {t : Str}
    (h : Matches (unroll k rxOver) t) :
    ∃ a d b, t = a ++ '$' :: d :: b ∧ digitCommaB d = true := by
  have he : unroll k rxOver = .cat
      (.cat (.cls fun x => x == 'O') (.cat (.cls fun x => x == 'v')
        (.cat (.cls fun x => x == 'e') (.cat (.cls fun x => x == 'r') .eps))))
      (.cat (.cat (.cls wsB) (repUpToG (.cls wsB) k))
        (.cat (.cls fun x => x == '$')
          (.group 1 (.cat (.cls digitCommaB)
            (repUpToG (.cls digitCommaB) k))))) := rfl
  rw [he] at h
  obtain ⟨t1, t2, rfl, -, h2⟩ := matches_cat_inv h
  obtain ⟨t3, t4, rfl, -, h4⟩ := matches_cat_inv h2
  obtain ⟨t5, t6, rfl, h5, h6⟩ := matches_cat_inv h4
  obtain ⟨c5, rfl, hc5⟩ := matches_cls_inv h5
  obtain rfl : c5 = '$' := by simpa [beq_iff_eq] using hc5
  obtain ⟨d, t7, rfl, hd⟩ := matches_catClsHead (matches_grp_inv h6)
  exact ⟨t1 ++ t3, d, t7, by simp, hd⟩

/-- Any match of the Under pattern contains a `$<digit-or-comma>`
position. -/
theorem matches_under_dollar {k : Nat} {t : Str}
    (h : Matches (unroll k rxUnder) t) :
    ∃ a d b, t = a ++ '$' :: d :: b ∧ digitCommaB d = true := by
  have he : unroll k rxUnder = .cat
      (.cat (.cls fun x => x == 'U') (.cat (.cls fun x => x == 'n')
        (.cat (.cls fun x => x == 'd') (.cat (.cls fun x => x == 'e')
          (.cat (.cls fun x => x == 'r') .eps)))))
      (.cat (.cat (.cls wsB) (repUpToG (.cls wsB) k))
        (.cat (.cls fun x => x == '$')
          (.group 1 (.cat (.cls digitCommaB)
            (repUpToG (.cls digitCommaB) k))))) := rfl
  rw [he] at h
  obtain ⟨t1, t2, rfl, -, h2⟩ := matches_cat_inv h
  obtain ⟨t3, t4, rfl, -, h4⟩ := matches_cat_inv h2
  obtain ⟨t5, t6, rfl, h5, h6⟩ := matches_cat_inv h4
  obtain ⟨c5, rfl, hc5⟩ := matches_cls_inv h5
  obtain rfl : c5 = '$' := by simpa [beq_iff_eq] using hc5
  obtain ⟨d, t7, rfl, hd⟩ := matches_catClsHead (matches_grp_inv h6)
  exact ⟨t1 ++ t3, d, t7, by simp, hd⟩

/-- Any match of the to-range pattern contains a `$<digit-or-comma>`
position. -/
theorem matches_to_dollar {k : Nat} {t : Str}
    (h : Matches (unroll k rxToAmt) t) :
    ∃ a d b, t = a ++ '$' :: d :: b ∧ digitCommaB d = true := by
  have he : unroll k rxToAmt = .cat (.cls fun x => x == '$')
      (.cat (.group 1 (.cat (.cls digitCommaB) (repUpToG (.cls digitCommaB) k)))
        (.cat (.cat (.cls wsB) (repUpToG (.cls wsB) k))
          (.cat (.cat (.cls fun x => x == 't')
            (.cat (.cls fun x => x == 'o') .eps))
            (.cat (.cat (.cls wsB) (repUpToG (.cls wsB) k))
              (.cat (.cls fun x => x == '$')
                (.group 2 (.cat (.cls digitCommaB)
                  (repUpToG (.cls digitCommaB) k)))))))) := rfl
  rw [he] at h
  obtain ⟨t1, t2, rfl, h1, h2⟩ := matches_cat_inv h
  obtain ⟨c1, rfl, hc1⟩ := matches_cls_inv h1
  obtain rfl : c1 = '$' := by simpa [beq_iff_eq] using hc1
  obtain ⟨t3, t4, rfl, h3, -⟩ := matches_cat_inv h2
  obtain ⟨d, t5, rfl, hd⟩ := matches_catClsHead (matches_grp_inv h3)
  exact ⟨[], d, t5 ++ t4, by simp, hd⟩

/-- A search hit of one of the three later amount patterns forces the
first amount pattern to match the line as well. -/
theorem later_implies_amt1 {rx : RX} {line : Str}
    (hrx : rx = rxOver ∨ rx = rxUnder ∨ rx = rxToAmt)
    (h : (reSearch rx line).isSome = true) :
    (reSearch rxAmt1 line).isSome = true := by
  obtain ⟨m, hm⟩ := Option.isSome_iff_exists.mp h
  have hm' : searchAux (unroll line.length rx) line none 0 = some m := hm
  obtain ⟨u, t, hline, hmt⟩ := searchAux_split _ line none 0 m hm'
  have hsplit : ∃ a d b, t = a ++ '$' :: d :: b ∧ digitCommaB d = true := by
    rcases hrx with rfl | rfl | rfl
    · exact matches_over_dollar hmt
    · exact matches_under_dollar hmt
    · exact matches_to_dollar hmt
  obtain ⟨a, d, b, rfl, hd⟩ := hsplit
  have hline2 : line = (u ++ a) ++ ('$' :: d :: (b ++ m.rest)) := by
    rw [hline]; simp
  rw [hline2]
  exact reSearch_isSome_of_split rxAmt1 (u ++ a) ('$' :: d :: (b ++ m.rest))
    (fun p => mrun_amt1_at hd _ p)

/-! ### The claims

Concrete document lines shared by several claims. -/

def acmeCorpLine : Str := "SP ACME CORP P 01/02/2024 01/10/2024 $15,001 -".data
def otCodeLine : Str := "[OT] $50,000".data
def amznLine : Str := "AMAZON.COM INC (AMZN) S 02/01/2024 02/03/2024 $50,001-$100,000".data
def widgetDashLine : Str := "SP WIDGET CO P 03/01/2024 03/05/2024 $1,001 -".data
def widgetPlainLine : Str := "SP WIDGET CO P 03/01/2024 03/05/2024 $1,001".data
def wdgNextLine : Str := "(WDG) $15,000".data
def totalTradeLine : Str := "BUY TOTAL CORP (TOT) P 01/01/2024 01/02/2024 $1,001".data
def totalPlainLine : Str := "BUY TOTAL STOCK".data
def sharesLine : Str := "BUY 100 SHARES OF APPLE INC".data
def acmeTickerLine : Str := "SP ACME CO (ACM) P 01/01/2024 01/02/2024 $1,001".data
def buyAcmeLine : Str := "BUY ACME INC".data

/-- The match of pattern 2 on widgetDashLine (used by the C3 witness). -/
def mW : SRes :=
  ⟨0, [], [(5, "$1,001 -".data), (4, "03/05/2024".data), (3, "03/01/2024".data),
    (2, "P".data), (1, "WIDGET CO".data)]⟩

/-- The match of the ticker pattern on wdgNextLine (used by the C3
witness). -/
def tW : SRes := ⟨0, " $15,000".data, [(1, "WDG".data)]⟩

/-- The heuristic record the engine emits for buyAcmeLine (used by the
C5/C7/C9 witnesses). -/
def heurRecW : Trade :=
  ⟨"BUY ACME INC".data, none, "stock".data, "BUY".data, "Unknown".data,
    "Unknown".data, none, none, some "Unknown".data, "BUY ACME INC".data⟩

/-- C1: the spec claims that for the line
"SP ACME CORP P 01/02/2024 01/10/2024 $15,001 -" followed by
"[OT] $50,000" the engine emits a record with amount_range
"$15,001 - $50,000".  The code does not: the `[^P]*?` of classifier
patterns 2 and 3 cannot span the P of CORP and no other pattern or
keyword applies, so the line is not classified as a trade line and the
engine emits nothing at all for this document. -/
theorem c1_acme_corp_rejected :
    pyIsTradeLine acmeCorpLine = false ∧
    pyParseTextForTrades [acmeCorpLine, otCodeLine] = [] := by decide

set_option maxRecDepth 200000 in
/-- C2 counterexample: the claim says the single-line full form yields
amount_range_raw "$50,001-$100,000"; the code emits "$50,001-", because
pattern 1's amount capture `\$[\d,]+(?:\s*-)?` stops at the dash and the
single-line document offers no next line to complete it. -/
theorem c2_counterexample :
    (pyParseTextForTrades [amznLine]).map (fun t => t.amount_range) =
      ["$50,001-".data] ∧
    ("$50,001-".data : Str) ≠ "$50,001-$100,000".data := by decide

set_option maxRecDepth 200000 in
/-- C2 (amended): the single-line full form yields asset_name
"AMAZON.COM INC", ticker "AMZN", action Sell — but amount_range_raw
"$50,001-", the truncated capture. -/
theorem c2_single_line_amzn :
    pyParseTextForTrades [amznLine] =
      [⟨"AMAZON.COM INC".data, some "AMZN".data, "stock".data, "SELL".data,
        "$50,001-".data, "02/01/2024".data, some "02/03/2024".data, some [],
        none, amznLine⟩] := by decide

set_option maxRecDepth 200000 in
/-- C3 counterexample: the claim says a dollar token from the next line
is appended iff the amount ended in a dangling dash.  Here the amount
capture is the complete "$1,001" (no dash), yet the code appends the next
line's "$15,000" anyway, emitting "$1,001 $15,000". -/
theorem c3_counterexample :
    ((reSearch rxP2 widgetPlainLine).bind fun m => capGet m 5) =
      some "$1,001".data ∧
    (pyParseTradeLine widgetPlainLine [widgetPlainLine, wdgNextLine] 0).map
      (fun t => t.amount_range) = some "$1,001 $15,000".data ∧
    ("$1,001 $15,000".data : Str) ≠ "$1,001".data := by decide

set_option maxRecDepth 200000 in
/-- C3 (amended): in the ticker-on-next-line shape the ticker is read
from the next line, and a dollar token from the next line, when present,
is always appended to the amount (space-joined) regardless of any
dangling dash; the amount is unchanged only when the next line carries no
dollar token. -/
theorem c3_ticker_next_line (line : Str) (lines : List Str) (i : Nat)
    (m2 tm : SRes)
    (h1 : reSearch rxP1 line = none) (h2 : reSearch rxP2 line = some m2)
    (hi : i + 1 < lines.length)
    (ht : reSearch rxTicker (lines.getD (i + 1) []) = some tm) :
    pyParsePtrTradeLine line lines i =
      some (recP2 line (lines.getD (i + 1) []) lines i m2 tm) ∧
    (recP2 line (lines.getD (i + 1) []) lines i m2 tm).ticker =
      some (pyStrip (capD tm 1)) ∧
    (recP2 line (lines.getD (i + 1) []) lines i m2 tm).amount_range =
      (match reSearch rxAmtTok (lines.getD (i + 1) []) with
       | some am => pyStrip (capD m2 5) ++ ' ' :: capD am 1
       | none => pyStrip (capD m2 5)) := by
  refine ⟨?_, rfl, rfl⟩
  simp only [pyParsePtrTradeLine, h1, h2, if_pos hi, ht]

/-- C3 witness: the spec's own example, "SP WIDGET CO P 03/01/2024
03/05/2024 $1,001 -" followed by "(WDG) $15,000", instantiating the
amended theorem; the amount here does end in a dash and the result is
"$1,001 - $15,000" with ticker "WDG". -/
theorem c3_witness :
    pyParsePtrTradeLine widgetDashLine [widgetDashLine, wdgNextLine] 0 =
      some (recP2 widgetDashLine ([widgetDashLine, wdgNextLine].getD 1 [])
        [widgetDashLine, wdgNextLine] 0 mW tW) ∧
    (recP2 widgetDashLine ([widgetDashLine, wdgNextLine].getD 1 [])
      [widgetDashLine, wdgNextLine] 0 mW tW).ticker =
        some (pyStrip (capD tW 1)) ∧
    (recP2 widgetDashLine ([widgetDashLine, wdgNextLine].getD 1 [])
      [widgetDashLine, wdgNextLine] 0 mW tW).amount_range =
      (match reSearch rxAmtTok ([widgetDashLine, wdgNextLine].getD 1 []) with
       | some am => pyStrip (capD mW 5) ++ ' ' :: capD am 1
       | none => pyStrip (capD mW 5)) :=
  c3_ticker_next_line widgetDashLine [widgetDashLine, wdgNextLine] 0 mW tW
    (by decide) (by decide) (by decide) (by decide)

set_option maxRecDepth 200000 in
/-- C4 counterexample: a line containing TOTAL and the action keyword BUY
that matches structural pattern 1 is classified as a candidate trade
line, because the structural patterns are checked before the
header-keyword rejection. -/
theorem c4_counterexample :
    containsStr "TOTAL".data (upperStr totalTradeLine) = true ∧
    containsStr "BUY".data (upperStr totalTradeLine) = true ∧
    pyIsTradeLine totalTradeLine = true := by decide

set_option maxRecDepth 200000 in
/-- C4 (amended): a line containing TOTAL or ASSET alongside an action
keyword is rejected by the classifier provided it matches none of the
three structural shape patterns. -/
theorem c4_header_rejection (line : Str)
    (h1 : reSearch rxP1 line = none) (h2 : reSearch rxP2 line = none)
    (h3 : reSearch rxP3 line = none)
    (hact : actionKws.any (fun k => containsStr k (upperStr line)) = true)
    (hskip : containsStr "TOTAL".data (upperStr line) = true ∨
      containsStr "ASSET".data (upperStr line) = true) :
    pyIsTradeLine line = false := by
  unfold pyIsTradeLine
  rw [h1, h2, h3]
  simp only [Option.isSome_none, Bool.false_eq_true, if_false]
  have hh : (skipKws.any fun k => containsStr k (upperStr line)) = true := by
    refine List.any_eq_true.mpr ?_
    rcases hskip with h | h
    · exact ⟨"TOTAL".data, by decide, h⟩
    · exact ⟨"ASSET".data, by decide, h⟩
  simp [hh]

/-- C4 witness: "BUY TOTAL STOCK" matches no structural pattern, contains
TOTAL and the action keyword BUY, and is rejected. -/
theorem c4_witness : pyIsTradeLine totalPlainLine = false :=
  c4_header_rejection totalPlainLine (by decide) (by decide) (by decide)
    (by decide) (Or.inl (by decide))

/-- C5 counterexample: the heuristic fallback emits a record with no
notification_date key at all (and its ticker is Python None), refuting
the claim that every emitted record carries both date fields. -/
theorem c5_counterexample :
    pyParseTextForTrades [sharesLine] =
      [⟨"BUY".data, none, "stock".data, "BUY".data, "Unknown".data,
        "Unknown".data, none, none, some "Unknown".data, sharesLine⟩] ∧
    (pyParseTextForTrades [sharesLine]).map (fun t => t.notification_date) =
      [none] := by decide

set_option maxRecDepth 200000 in
/-- C5 (amended): structural-path records always carry both
transaction_date and notification_date, each a \d{1,2}/\d{1,2}/\d{4}
token; heuristic-fallback records carry a transaction_date (date token or
"Unknown") and a filing_date, but no notification_date field. -/
theorem c5_record_dates (line : Str) (lines : List Str) (i : Nat) (r : Trade)
    (h : pyParseTradeLine line lines i = some r) :
    ((∃ d, r.notification_date = some d ∧ IsDateStr d) ∧
      IsDateStr r.transaction_date) ∨
    (r.notification_date = none ∧ r.filing_date.isSome = true ∧
      (IsDateStr r.transaction_date ∨ r.transaction_date = "Unknown".data)) := by
  rcases parse_cases h with hp | ⟨-, action, asset, tk, tt, -, -, -, rfl⟩
  · exact Or.inl (ptr_dates hp)
  · exact Or.inr ⟨rfl, rfl, transDate_shape line lines i⟩

/-- C5 witness: the heuristic record for "BUY ACME INC" in a one-line
document, instantiating the amended theorem. -/
theorem c5_witness :
    ((∃ d, heurRecW.notification_date = some d ∧ IsDateStr d) ∧
      IsDateStr heurRecW.transaction_date) ∨
    (heurRecW.notification_date = none ∧ heurRecW.filing_date.isSome = true ∧
      (IsDateStr heurRecW.transaction_date ∨
        heurRecW.transaction_date = "Unknown".data)) :=
  c5_record_dates buyAcmeLine [buyAcmeLine] 0 heurRecW (by decide)

set_option maxRecDepth 200000 in
/-- C6 counterexample: the claim says a line containing `Over $<n>`
yields "Over $<n>"; but the dollar-token pattern is checked first and
always matches such a line, so the code yields "$<n>". -/
theorem c6_counterexample :
    pyExtractAmountRange "Over $1,000,000".data = "$1,000,000".data ∧
    pyExtractAmountRange "Over $1,000,000".data ≠ "Over $1,000,000".data := by
  decide

/-- A dollar-prefixed string is never the Unknown sentinel. -/
theorem dollar_ne_unknown (x : Str) : '$' :: x ≠ "Unknown".data := by
  intro h
  rw [show ("Unknown".data : Str) = 'U' :: "nknown".data from rfl] at h
  injection h with h1 h2
  exact absurd h1 (by decide)

set_option maxRecDepth 200000 in
/-- C6 (amended): the cascade checks the dollar-token pattern first, and
for every line the three later branches are unreachable — any line
matched by the Over, Under or to pattern is also matched by the
dollar-token pattern, which wins — so the extractor returns, for every
line, either a string of the form "$..." built from the first pattern's
captures or the sentinel "Unknown", the latter exactly when none of the
four patterns matches the line; in particular "Over $1,000,000" yields
"$1,000,000", "Under $1,001" yields "$1,001", "$1,001 to $15,000" yields
"$1,001", and a plain "$1,001-$15,000" yields itself. -/
theorem c6_amount_cascade :
    (∀ line : Str,
      ((reSearch rxOver line).isSome = true ∨
        (reSearch rxUnder line).isSome = true ∨
        (reSearch rxToAmt line).isSome = true →
        (reSearch rxAmt1 line).isSome = true) ∧
      ((∃ g, pyExtractAmountRange line = '$' :: g) ∨
        pyExtractAmountRange line = "Unknown".data) ∧
      (pyExtractAmountRange line = "Unknown".data ↔
        reSearch rxAmt1 line = none ∧ reSearch rxOver line = none ∧
        reSearch rxUnder line = none ∧ reSearch rxToAmt line = none)) ∧
    pyExtractAmountRange "Over $1,000,000".data = "$1,000,000".data ∧
    pyExtractAmountRange "Under $1,001".data = "$1,001".data ∧
    pyExtractAmountRange "$1,001 to $15,000".data = "$1,001".data ∧
    pyExtractAmountRange "$1,001-$15,000".data = "$1,001-$15,000".data := by
  refine ⟨?_, by decide, by decide, by decide, by decide⟩
  intro line
  have hlater : (reSearch rxOver line).isSome = true ∨
      (reSearch rxUnder line).isSome = true ∨
      (reSearch rxToAmt line).isSome = true →
      (reSearch rxAmt1 line).isSome = true := by
    intro h
    rcases h with h | h | h
    · exact later_implies_amt1 (Or.inl rfl) h
    · exact later_implies_amt1 (Or.inr (Or.inl rfl)) h
    · exact later_implies_amt1 (Or.inr (Or.inr rfl)) h
  refine ⟨hlater, ?_, ?_⟩
  · cases h1 : reSearch rxAmt1 line with
    | some m =>
      refine Or.inl ?_
      unfold pyExtractAmountRange
      rw [h1]
      show ∃ g, (match capGet m 2 with
        | some g2 => '$' :: (capD m 1 ++ '-' :: '$' :: g2)
        | none => '$' :: capD m 1) = '$' :: g
      cases capGet m 2 with
      | some g2 => exact ⟨_, rfl⟩
      | none => exact ⟨_, rfl⟩
    | none =>
      have ho : reSearch rxOver line = none := by
        cases ho : reSearch rxOver line with
        | none => rfl
        | some m =>
          have := hlater (Or.inl (by rw [ho]; rfl))
          rw [h1] at this
          exact absurd this (by simp)
      have hu : reSearch rxUnder line = none := by
        cases hu : reSearch rxUnder line with
        | none => rfl
        | some m =>
          have := hlater (Or.inr (Or.inl (by rw [hu]; rfl)))
          rw [h1] at this
          exact absurd this (by simp)
      have hto : reSearch rxToAmt line = none := by
        cases hto : reSearch rxToAmt line with
        | none => rfl
        | some m =>
          have := hlater (Or.inr (Or.inr (by rw [hto]; rfl)))
          rw [h1] at this
          exact absurd this (by simp)
      refine Or.inr ?_
      unfold pyExtractAmountRange
      rw [h1, ho, hu, hto]
  · constructor
    · intro hres
      have h1 : reSearch rxAmt1 line = none := by
        cases h1 : reSearch rxAmt1 line with
        | none => rfl
        | some m =>
          unfold pyExtractAmountRange at hres
          rw [h1] at hres
          replace hres : (match capGet m 2 with
            | some g2 => '$' :: (capD m 1 ++ '-' :: '$' :: g2)
            | none => '$' :: capD m 1) = "Unknown".data := hres
          cases hg : capGet m 2 with
          | some g2 => rw [hg] at hres; exact absurd hres (dollar_ne_unknown _)
          | none => rw [hg] at hres; exact absurd hres (dollar_ne_unknown _)
      have ho : reSearch rxOver line = none := by
        cases ho : reSearch rxOver line with
        | none => rfl
        | some m =>
          have := hlater (Or.inl (by rw [ho]; rfl))
          rw [h1] at this
          exact absurd this (by simp)
      have hu : reSearch rxUnder line = none := by
        cases hu : reSearch rxUnder line with
        | none => rfl
        | some m =>
          have := hlater (Or.inr (Or.inl (by rw [hu]; rfl)))
          rw [h1] at this
          exact absurd this (by simp)
      have hto : reSearch rxToAmt line = none := by
        cases hto : reSearch rxToAmt line with
        | none => rfl
        | some m =>
          have := hlater (Or.inr (Or.inr (by rw [hto]; rfl)))
          rw [h1] at this
          exact absurd this (by simp)
      exact ⟨h1, ho, hu, hto⟩
    · intro ⟨h1, ho, hu, hto⟩
      unfold pyExtractAmountRange
      rw [h1, ho, hu, hto]

/-- C7: in every emitted record the ticker is a not-applicable sentinel
(Python None on the heuristic path, the string "N/A" on the no-ticker
structural path) or 1–5 uppercase letters, and never the empty string. -/
theorem c7_ticker_invariant (line : Str) (lines : List Str) (i : Nat) (r : Trade)
    (h : pyParseTradeLine line lines i = some r) :
    TickerOK r ∧ r.ticker ≠ some [] := by
  have hok : TickerOK r := by
    rcases parse_cases h with hp | ⟨-, action, asset, tk, tt, -, hat, -, rfl⟩
    · rcases ptr_cases hp with ⟨m, hm, rfl⟩ | ⟨m2, tm, hm2, -, htm, rfl⟩ |
        ⟨m3, -, -, rfl⟩
      · exact ticker_recP1 hm
      · exact ticker_recP2 htm
      · exact ticker_recP3
    · rcases assetType_ticker hat with h' | ⟨t, ht, h1, h2, h3⟩
      · exact Or.inl h'
      · exact Or.inr (Or.inr ⟨t, ht, h1, h2, h3⟩)
  refine ⟨hok, ?_⟩
  rcases hok with h' | h' | ⟨t, ht, h1, -, -⟩
  · rw [h']; simp
  · rw [h']; intro hx; injection hx with hx; exact absurd hx (by decide)
  · rw [ht]
    intro hx
    injection hx with hx
    rw [hx] at h1
    simp at h1

/-- C7 witness: the heuristic record for "BUY ACME INC" (ticker is the
None sentinel), instantiating the invariant. -/
theorem c7_witness : TickerOK heurRecW ∧ heurRecW.ticker ≠ some [] :=
  c7_ticker_invariant buyAcmeLine [buyAcmeLine] 0 heurRecW (by decide)

set_option maxRecDepth 200000 in
/-- C8 counterexample: a window line with surrounding whitespace is not
appended verbatim-after-null-stripping as the claim says — the code also
strips whitespace, so the two readings differ on this document. -/
theorem c8_counterexample :
    pyExtractDescription ["HDR".data, "D: FOO".data, "  BAR  ".data] 0 =
      "FOO BAR".data ∧
    pyExtractDescription ["HDR".data, "D: FOO".data, "  BAR  ".data] 0 ≠
      claimExtractDescription ["HDR".data, "D: FOO".data, "  BAR  ".data] 0 := by
  decide

/-- C9: for every line accepted by the classifier the extractor is a
total function returning an optional record (the embedding has no
exceptional control flow), and any record it returns has a non-empty
asset name and a BUY/SELL action. -/
theorem c9_extractor_total_valid (line : Str) (lines : List Str) (i : Nat)
    (hline : pyIsTradeLine line = true) (r : Trade)
    (h : pyParseTradeLine line lines i = some r) : RecordValid r := by
  rcases parse_cases h with hp | ⟨-, action, asset, tk, tt, ha, -, hlen, rfl⟩
  · rcases ptr_cases hp with ⟨m, hm, rfl⟩ | ⟨m2, tm, hm2, -, htm, rfl⟩ |
      ⟨m3, hm3, -, rfl⟩
    · exact valid_recP1 hm
    · exact valid_recP2 hm2
    · exact valid_recP3 hm3
  · refine ⟨?_, extractAction_cases ha⟩
    show asset ≠ []
    intro hnil
    rw [hnil] at hlen
    simp at hlen

/-- C9 witness: the record for the accepted line "BUY ACME INC". -/
theorem c9_witness : RecordValid heurRecW :=
  c9_extractor_total_valid buyAcmeLine [buyAcmeLine] 0 (by decide) heurRecW
    (by decide)

set_option maxRecDepth 200000 in
/-- C10 counterexample: a line matching the multi-line shape 2 that is
the last line of its document can still produce a structural record,
because it also matches the single-line shape 1 (ticker in parentheses on
the same line), which needs no following line. -/
theorem c10_counterexample :
    (reSearch rxP2 acmeTickerLine).isSome = true ∧
    (pyParsePtrTradeLine acmeTickerLine [acmeTickerLine] 0).isSome = true := by
  decide

set_option maxRecDepth 200000 in
/-- C10 (amended): when a line does not match the single-line shape 1 and
has no following line, the structural extractor returns no record, and a
record can then only arise from the heuristic fallback, which requires an
action keyword on the line. -/
theorem c10_last_line (line : Str) (lines : List Str) (i : Nat)
    (h1 : reSearch rxP1 line = none) (hlast : lines.length ≤ i + 1) :
    pyParsePtrTradeLine line lines i = none ∧
    ∀ r, pyParseTradeLine line lines i = some r →
      pyExtractAction line ≠ none := by
  have hp3 : pyP3Branch line lines i = none := by
    unfold pyP3Branch
    cases hm3 : reSearch rxP3 line with
    | none => rfl
    | some m3 =>
      show (if i + 1 < lines.length then some (recP3 line lines i m3)
        else none) = none
      rw [if_neg (by omega)]
  have hnone : pyParsePtrTradeLine line lines i = none := by
    unfold pyParsePtrTradeLine
    rw [h1]
    cases hm2 : reSearch rxP2 line with
    | none => exact hp3
    | some m2 =>
      show (if i + 1 < lines.length then
          (match reSearch rxTicker (lines.getD (i + 1) []) with
           | some tm => some (recP2 line (lines.getD (i + 1) []) lines i m2 tm)
           | none => pyP3Branch line lines i)
        else pyP3Branch line lines i) = none
      rw [if_neg (by omega)]
      exact hp3
  refine ⟨hnone, ?_⟩
  intro r hr ha
  rcases parse_cases hr with hp | ⟨-, action, asset, tk, tt, hact, -⟩
  · rw [hnone] at hp
    exact absurd hp (by simp)
  · rw [ha] at hact
    exact absurd hact (by simp)

/-- C10 witness: "SP WIDGET CO P 03/01/2024 03/05/2024 $1,001 -" as the
last (only) line of a document: the structural extractor yields nothing. -/
theorem c10_witness :
    pyParsePtrTradeLine widgetDashLine [widgetDashLine] 0 = none ∧
    ∀ r, pyParseTradeLine widgetDashLine [widgetDashLine] 0 = some r →
      pyExtractAction widgetDashLine ≠ none :=
  c10_last_line widgetDashLine [widgetDashLine] 0 (by decide) (by decide)
